import Mathlib

/-!
Verification of the MakiFlow computation-graph core: shape inference for the
Stem block, channel ordering at its concatenation points, the parameter
dictionary merge, the ClassRegHead dimensionality check, the Regressor
architecture save/load round trip, and the classifier training loops.

Shapes are `(height, width, channels)` triples of naturals.  Layer shape
rules for the convolution and max-pooling layers are modelled from the spec
(the `makiflow.layers` module is not part of the provided sources); the Stem
topology, the Regressor model-info fields, the ClassRegHead checks and the
training loops are transcribed from the sources.
-/

set_option autoImplicit false

namespace MakiFlow

/-- Padding mode of a convolution or pooling layer. -/
inductive Padding : Type where
  | same : Padding
  | valid : Padding
deriving DecidableEq, Repr

/-- Modelled from the spec: output spatial size of a sliding-window layer
(`makiflow.layers.ConvLayer` / `MaxPoolLayer` are not in the provided
sources).  The spec states: convolution with kernel `k`, stride `s` and
"valid" padding over input size `w` yields `(w - k) / s + 1` (floor
division); "same" padding preserves the spatial size (every SAME layer in
the Stem block has stride 1). -/
def convSize (k s : ℕ) (pad : Padding) (w : ℕ) : ℕ :=
  match pad with
  | .valid => (w - k) / s + 1
  | .same => w

/-- Shape of a tensor: height, width, channel depth. -/
abbrev Shape := ℕ × ℕ × ℕ

/-- Modelled from the spec: shape transform of a convolution layer with
kernel height `kh`, kernel width `kw`, stride `s`, padding `pad` and
`outF` output feature maps. -/
def convShape (kh kw s : ℕ) (pad : Padding) (outF : ℕ) : Shape → Shape
  | (h, w, _) => (convSize kh s pad h, convSize kw s pad w, outF)

/-- Modelled from the spec: shape transform of a VALID max-pooling layer
with window `k` and stride `s`; pooling keeps the channel depth. -/
def maxPoolShape (k s : ℕ) : Shape → Shape
  | (h, w, c) => ((h - k) / s + 1, (w - k) / s + 1, c)

/-- Batch normalization does not change the shape. -/
def batchNormShape : Shape → Shape := id

/-- An activation layer does not change the shape. -/
def activationShape : Shape → Shape := id

/-- Shape transform of `tf.concat(..., axis=3)`: the feature depths add,
the spatial dimensions are those of the first operand (the branches are
proved to agree spatially at every merge point of the Stem block). -/
def concatShape : Shape → Shape → Shape
  | (h, w, c1), (_, _, c2) => (h, w, c1 + c2)

/-- Configuration of a `StemBlock` (`stem.py`): input depth `in_f` and the
three output feature counts `out_f = [f0, f1, f2]` (the constructor asserts
`len(out_f) == 3`). -/
structure StemConf where
  in_f : ℕ
  f0 : ℕ
  f1 : ℕ
  f2 : ℕ
deriving DecidableEq, Repr

/-- Shape after `conv1` (3x3, stride 2, VALID, `out_f[0]` maps), followed by
`batch_norm1` and `activ1`, as in `StemBlock.forward`. -/
def stemAfterConv1 (c : StemConf) (s : Shape) : Shape :=
  activationShape (batchNormShape (convShape 3 3 2 .valid c.f0 s))

/-- Shape after `conv2` (3x3, stride 1, VALID, `out_f[0]` maps) with its
normalization and activation. -/
def stemAfterConv2 (c : StemConf) (s : Shape) : Shape :=
  activationShape (batchNormShape (convShape 3 3 1 .valid c.f0 (stemAfterConv1 c s)))

/-- Shape after `conv3` (3x3, stride 1, default SAME padding, `out_f[1]`
maps) with its normalization and activation. -/
def stemAfterConv3 (c : StemConf) (s : Shape) : Shape :=
  activationShape (batchNormShape (convShape 3 3 1 .same c.f1 (stemAfterConv2 c s)))

/-- Split 1, pooling branch (`SX`): `maxpool1_L_1`, window 3, stride 2,
VALID. -/
def stemSplit1Pool (c : StemConf) (s : Shape) : Shape :=
  maxPoolShape 3 2 (stemAfterConv3 c s)

/-- Split 1, convolution branch (`FX`): `conv3_R_1` (3x3, stride 2, VALID,
`out_f[2]` maps) with normalization and activation. -/
def stemSplit1Conv (c : StemConf) (s : Shape) : Shape :=
  activationShape (batchNormShape (convShape 3 3 2 .valid c.f2 (stemAfterConv3 c s)))

/-- First merge: `tf.concat([FX, SX], axis=3)` with `FX` the convolution
branch and `SX` the pooling branch. -/
def stemMerge1 (c : StemConf) (s : Shape) : Shape :=
  concatShape (stemSplit1Conv c s) (stemSplit1Pool c s)

/-- Split 2, left branch (`SX`): `conv4_L_1` (1x1, SAME, `out_f[1]`) then
`conv4_L_2` (3x3, stride 1, VALID, `out_f[2]`), each with normalization and
activation. -/
def stemSplit2Left (c : StemConf) (s : Shape) : Shape :=
  activationShape (batchNormShape (convShape 3 3 1 .valid c.f2
    (activationShape (batchNormShape (convShape 1 1 1 .same c.f1 (stemMerge1 c s))))))

/-- Split 2, right branch (`FX`): `conv4_R_1` (1x1, SAME, `out_f[1]`),
`conv4_R_2` (kw=7, kh=1, SAME, `out_f[1]`), `conv4_R_3` (kw=1, kh=7, SAME,
`out_f[1]`), then `conv4_R_4` (3x3, stride 1, VALID, `out_f[2]`). -/
def stemSplit2Right (c : StemConf) (s : Shape) : Shape :=
  activationShape (batchNormShape (convShape 3 3 1 .valid c.f2
    (activationShape (batchNormShape (convShape 7 1 1 .same c.f1
      (activationShape (batchNormShape (convShape 1 7 1 .same c.f1
        (activationShape (batchNormShape (convShape 1 1 1 .same c.f1 (stemMerge1 c s))))))))))))

/-- Second merge: `tf.concat([FX, SX], axis=3)` with `FX` the factored right
branch and `SX` the left branch. -/
def stemMerge2 (c : StemConf) (s : Shape) : Shape :=
  concatShape (stemSplit2Right c s) (stemSplit2Left c s)

/-- Split 3, convolution branch (`SX`): `conv5_L_1` (3x3, stride 2, VALID,
`out_f[2]*2` maps) with normalization and activation. -/
def stemSplit3Conv (c : StemConf) (s : Shape) : Shape :=
  activationShape (batchNormShape (convShape 3 3 2 .valid (c.f2 * 2) (stemMerge2 c s)))

/-- Split 3, pooling branch (`FX`): `maxpool5_L_1`, window 3, stride 2,
VALID. -/
def stemSplit3Pool (c : StemConf) (s : Shape) : Shape :=
  maxPoolShape 3 2 (stemMerge2 c s)

/-- Final output of `StemBlock.forward`:
`tf.concat([FX, SX], axis=3)` with `FX` the pooling branch and `SX` the
convolution branch. -/
def stemOut (c : StemConf) (s : Shape) : Shape :=
  concatShape (stemSplit3Pool c s) (stemSplit3Conv c s)

/-! Channel provenance: to reason about the channel order produced by the
`tf.concat` calls in `StemBlock.forward`, a tensor is abstracted to the
list of its channels, each tagged with the layer that produced it. -/

/-- Channels of a tensor, tagged by the producing layer. -/
abbrev Channels := List String

/-- A convolution layer producing `outF` feature maps replaces the channel
list with `outF` channels tagged by the layer tag. -/
def convChannels (tag : String) (outF : ℕ) : Channels → Channels :=
  fun _ => List.replicate outF tag

/-- Max pooling operates per channel and keeps the channel list. -/
def maxPoolChannels : Channels → Channels := id

/-- Batch normalization operates per channel and keeps the channel list. -/
def batchNormChannels : Channels → Channels := id

/-- An activation is applied elementwise and keeps the channel list. -/
def activationChannels : Channels → Channels := id

/-- Channels of `tf.concat([a, b], axis=3)`: the channels of `a` followed by
the channels of `b`. -/
def concatChannels (a b : Channels) : Channels := a ++ b

/-- Channels after the `conv3` stage of `StemBlock.forward`. -/
def stemCh3 (c : StemConf) (x : Channels) : Channels :=
  activationChannels (batchNormChannels (convChannels "conv3" c.f1
    (activationChannels (batchNormChannels (convChannels "conv2" c.f0
      (activationChannels (batchNormChannels (convChannels "conv1" c.f0 x))))))))

/-- Channels after the first merge of `StemBlock.forward`:
`tf.concat([FX, SX], axis=3)` where `FX` went through `conv3_R_1` and `SX`
through `maxpool1_L_1`. -/
def stemMerge1Channels (c : StemConf) (x : Channels) : Channels :=
  concatChannels
    (activationChannels (batchNormChannels (convChannels "conv3_R_1" c.f2 (stemCh3 c x))))
    (maxPoolChannels (stemCh3 c x))

/-- Channels after the second merge of `StemBlock.forward`:
`tf.concat([FX, SX], axis=3)` where `FX` ended in `conv4_R_4` and `SX` in
`conv4_L_2`. -/
def stemMerge2Channels (c : StemConf) (x : Channels) : Channels :=
  let sx0 := stemMerge1Channels c x
  let sx1 := activationChannels (batchNormChannels (convChannels "conv4_L_1" c.f1 sx0))
  let sx2 := activationChannels (batchNormChannels (convChannels "conv4_L_2" c.f2 sx1))
  let fx1 := activationChannels (batchNormChannels (convChannels "conv4_R_1" c.f1 sx0))
  let fx2 := activationChannels (batchNormChannels (convChannels "conv4_R_2" c.f1 fx1))
  let fx3 := activationChannels (batchNormChannels (convChannels "conv4_R_3" c.f1 fx2))
  let fx4 := activationChannels (batchNormChannels (convChannels "conv4_R_4" c.f2 fx3))
  concatChannels fx4 sx2

/-- Channels after the third merge of `StemBlock.forward`:
`tf.concat([FX, SX], axis=3)` where `FX` went through `maxpool5_L_1` and
`SX` through `conv5_L_1`. -/
def stemMerge3Channels (c : StemConf) (x : Channels) : Channels :=
  concatChannels
    (maxPoolChannels (stemMerge2Channels c x))
    (activationChannels (batchNormChannels (convChannels "conv5_L_1" (c.f2 * 2)
      (stemMerge2Channels c x))))

/-- Modelled from the spec, for comparison against the source: the spec
states that at the first merge the pooling branch's channels precede the
convolution branch's channels. -/
def specMerge1Channels (c : StemConf) (x : Channels) : Channels :=
  concatChannels
    (maxPoolChannels (stemCh3 c x))
    (activationChannels (batchNormChannels (convChannels "conv3_R_1" c.f2 (stemCh3 c x))))

/-! Parameter dictionary merge.  `StemBlock.__init__` builds
`named_params_dict` by repeated Python `dict.update` over the layers'
parameter dictionaries; a Python dict keeps the original insertion position
of a key and silently replaces its value. -/

/-- Insertion of one binding into a Python-style dictionary modelled as an
association list: an existing key keeps its position and gets the new
value, a fresh key is appended. -/
def dictInsert {α : Type} : List (String × α) → String → α → List (String × α)
  | [], k, v => [(k, v)]
  | p :: d, k, v => if p.1 = k then (k, v) :: d else p :: dictInsert d k v

/-- Python `dict.update`: insert every binding of `other` in order. -/
def dictUpdate {α : Type} (d other : List (String × α)) : List (String × α) :=
  other.foldl (fun acc kv => dictInsert acc kv.1 kv.2) d

/-- The `named_params_dict` construction of `StemBlock.__init__`: start from
the empty dictionary and `update` with each layer's parameter dictionary in
order. -/
def buildParamsDict {α : Type} (layerParams : List (List (String × α))) :
    List (String × α) :=
  layerParams.foldl dictUpdate []

/-! ClassRegHead (`class_reg_head.py`): the dimensionality check and head
setup. -/

/-- Four-component shape `(batch, height, width, channels)` as unpacked by
`ClassRegHead._check_dimensionality`. -/
abbrev Shape4 := ℕ × ℕ × ℕ × ℕ

/-- Error raised by a failing dimensionality assertion: the names of the two
feature sources and their `(height, width)` pairs, as formatted into the
assertion message of `_check_dimensionality`. -/
structure DimMismatch where
  first : String
  second : String
  firstDims : ℕ × ℕ
  secondDims : ℕ × ℕ
deriving DecidableEq, Repr

/-- Transcription of `ClassRegHead._check_dimensionality`: the heights and
widths of `class_f`, `reg_f` and `human_indicator_f` must pairwise agree;
the channel and batch components are ignored. -/
def checkDimensionality (classF regF humaniF : Shape4) : Except DimMismatch Unit :=
  let (_, ch, cw, _) := classF
  let (_, rh, rw, _) := regF
  let (_, hh, hw, _) := humaniF
  if ch = rh ∧ cw = rw then
    if ch = hh ∧ cw = hw then
      if rh = hh ∧ rw = hw then
        Except.ok ()
      else
        Except.error ⟨"reg_f", "human_indicator_f", (rh, rw), (hh, hw)⟩
    else
      Except.error ⟨"class_f", "human_indicator_f", (ch, cw), (hh, hw)⟩
  else
    Except.error ⟨"class_f", "reg_f", (ch, cw), (rh, rw)⟩

/-- Configuration of one head convolution created by
`ClassRegHead._setup_heads`: name, input depth and output depth of the 1x1
SAME convolution. -/
structure HeadConv where
  convName : String
  inF : ℕ
  outF : ℕ
deriving DecidableEq, Repr

/-- Transcription of `ClassRegHead._setup_heads`: the classification head
(`n_classes = len(default_points)` outputs), the human-presence head (one
output, same name as the classification head) and the regression head
(`n_points * 2` outputs). -/
def setupHeads (nPoints : ℕ) (nm : String) (classF regF humaniF : Shape4) :
    List HeadConv :=
  [ ⟨"PointsClassifier/" ++ nm, classF.2.2.2, nPoints⟩,
    ⟨"PointsClassifier/" ++ nm, humaniF.2.2.2, 1⟩,
    ⟨"PointsRegressor/" ++ nm, regF.2.2.2, nPoints * 2⟩ ]

/-- Transcription of `ClassRegHead.__init__` up to head setup: the
dimensionality check runs first and aborts construction on mismatch; the
heads are only created when it passes. -/
def classRegHeadInit (nPoints : ℕ) (nm : String) (classF regF humaniF : Shape4) :
    Except DimMismatch (List HeadConv) :=
  (checkDimensionality classF regF humaniF).map
    (fun _ => setupHeads nPoints nm classF regF humaniF)

/-! Graph serialization and restoration.  The serializer and restorer live
in `makiflow.core` (`MakiModel.load_architecture`, `MakiBuilder.restore_graph`),
which is not part of the provided sources; they are modelled from the spec.
Only `Regressor.from_json` and `Regressor._get_model_info` are transcribed
from `regressor.py`. -/

/-- Serialized layer descriptor: the produced tensor's name, the layer's
kind tag plus configuration (abstracted to one string), and the names of
the predecessor tensors it consumes. -/
structure LayerDescriptor where
  name : String
  cfg : String
  parents : List String
deriving DecidableEq, Repr

/-- A live tensor node of the graph: its unique name, the configuration of
the producing layer, and references to its parent nodes. -/
inductive GNode : Type where
  | node : String → String → List GNode → GNode

mutual

/-- Boolean equality of nodes. -/
def GNode.beq : GNode → GNode → Bool
  | .node n1 c1 ps1, .node n2 c2 ps2 => n1 == n2 && c1 == c2 && GNode.beqL ps1 ps2

/-- Boolean equality of node lists. -/
def GNode.beqL : List GNode → List GNode → Bool
  | [], [] => true
  | p :: ps, q :: qs => GNode.beq p q && GNode.beqL ps qs
  | _, _ => false

end

mutual

theorem GNode.beq_iff : ∀ a b : GNode, GNode.beq a b = true ↔ a = b
  | .node n1 c1 ps1, .node n2 c2 ps2 => by
    simp only [GNode.beq, Bool.and_eq_true, beq_iff_eq, GNode.node.injEq,
      GNode.beqL_iff ps1 ps2, and_assoc]

theorem GNode.beqL_iff : ∀ as bs : List GNode, GNode.beqL as bs = true ↔ as = bs
  | [], [] => by simp [GNode.beqL]
  | [], _ :: _ => by simp [GNode.beqL]
  | _ :: _, [] => by simp [GNode.beqL]
  | p :: ps, q :: qs => by
    simp only [GNode.beqL, Bool.and_eq_true, GNode.beq_iff p q,
      GNode.beqL_iff ps qs, List.cons.injEq]

end

instance : DecidableEq GNode :=
  fun a b => decidable_of_iff (GNode.beq a b = true) (GNode.beq_iff a b)

/-- Name of a node. -/
def GNode.name : GNode → String
  | .node n _ _ => n

/-- Configuration tag of a node's producing layer. -/
def GNode.cfg : GNode → String
  | .node _ c _ => c

/-- Parent nodes of a node. -/
def GNode.parents : GNode → List GNode
  | .node _ _ ps => ps

mutual

/-- All nodes reachable from a node, the node itself included. -/
def subnodes : GNode → List GNode
  | .node n c ps => GNode.node n c ps :: subnodesL ps

/-- All nodes reachable from any node of a list. -/
def subnodesL : List GNode → List GNode
  | [] => []
  | p :: ps => subnodes p ++ subnodesL ps

end

/-- Well-formed graph: names are unique across the graph, i.e. two
reachable nodes with the same name are the same node. -/
def wfGraph (g : GNode) : Prop :=
  ∀ a ∈ subnodes g, ∀ b ∈ subnodes g, a.name = b.name → a = b

mutual

/-- Modelled from the spec: the serializer performs a reverse topological
traversal from the output node, memoized by node name so that each node is
visited exactly once regardless of fan-in, emitting each node's descriptor
after those of its parents.  Returns the emitted descriptors and the
updated visited-name list. -/
def serNode : GNode → List String → List LayerDescriptor × List String
  | .node n c ps, vis =>
    if n ∈ vis then ([], vis)
    else
      let r := serList ps vis
      (r.1 ++ [⟨n, c, ps.map GNode.name⟩], n :: r.2)

/-- Serialize every node of a worklist, threading the visited-name list. -/
def serList : List GNode → List String → List LayerDescriptor × List String
  | [], vis => ([], vis)
  | p :: ps, vis =>
    let r1 := serNode p vis
    let r2 := serList ps r1.2
    (r1.1 ++ r2.1, r2.2)

end

/-- Serialize the graph reachable from an output node. -/
def serializeGraph (g : GNode) : List LayerDescriptor :=
  (serNode g []).1

/-- Resolve a list of predecessor names in the environment of materialized
nodes; any unresolved name fails the whole lookup. -/
def lookupNodes (env : List (String × GNode)) : List String → Option (List GNode)
  | [] => some []
  | n :: ns =>
    match env.lookup n, lookupNodes env ns with
    | some g, some gs => some (g :: gs)
    | _, _ => none

/-- Modelled from the spec: the restorer replays descriptors in the given
order, resolving each descriptor's predecessor references by name lookup
into already-materialized nodes, and fails (`UnresolvedReference`) when a
predecessor name is not yet defined. -/
def restoreGraph : List LayerDescriptor → List (String × GNode) → Option (List (String × GNode))
  | [], env => some env
  | d :: ds, env =>
    match lookupNodes env d.parents with
    | none => none
    | some ps => restoreGraph ds ((d.name, GNode.node d.name d.cfg ps) :: env)

/-- A regressor model: its input node, output node and model name, as held
by `Regressor.__init__`. -/
structure RegressorModel where
  input : GNode
  output : GNode
  name : String
deriving DecidableEq

namespace Regressor

/-- Field-name constant `Regressor.INPUT` from `regressor.py`. -/
def INPUT : String := "in_x"

/-- Field-name constant `Regressor.OUTPUT` from `regressor.py`. -/
def OUTPUT : String := "out_x"

/-- Field-name constant `Regressor.NAME` from `regressor.py`. -/
def NAME : String := "name"

end Regressor

/-- Transcription of `Regressor._get_model_info`: the model-info dictionary
with the input tensor's name under `INPUT`, the output tensor's name under
`OUTPUT` and the model name under `NAME`. -/
def getModelInfo (m : RegressorModel) : List (String × String) :=
  [(Regressor.INPUT, m.input.name),
   (Regressor.OUTPUT, m.output.name),
   (Regressor.NAME, m.name)]

/-- Architecture file contents: the model info and the serialized graph
(`graph_info`), as produced at save time. -/
def saveArchitecture (m : RegressorModel) : List (String × String) × List LayerDescriptor :=
  (getModelInfo m, serializeGraph m.output)

/-- Transcription of `Regressor.from_json`: read the output, input and
model names from the model info, restore the graph from the descriptors,
look up the output and input tensors by name and rebuild the model. -/
def fromJson (arch : List (String × String) × List LayerDescriptor) :
    Option RegressorModel :=
  match arch.1.lookup Regressor.OUTPUT, arch.1.lookup Regressor.INPUT,
        arch.1.lookup Regressor.NAME with
  | some outName, some inName, some nm =>
    match restoreGraph arch.2 [] with
    | none => none
    | some env =>
      match env.lookup outName, env.lookup inName with
      | some outX, some inX => some ⟨inX, outX, nm⟩
      | _, _ => none
  | _, _, _ => none

/-- Transcription of `StemBlock.to_dict`: a descriptor with the kind tag
under `type` and the configuration under `params`, whose first entry is the
block's name (parameter values are rendered as strings here). -/
def stemToDict (c : StemConf) (nm activation : String) : String × List (String × String) :=
  ("StemBlock",
   [("name", nm),
    ("in_f", toString c.in_f),
    ("out_f", toString [c.f0, c.f1, c.f2]),
    ("activation", activation)])

/-- The descriptor a node is serialized to: its name, its configuration and
the names of its parents. -/
def descriptorOf (g : GNode) : LayerDescriptor :=
  ⟨g.name, g.cfg, g.parents.map GNode.name⟩

/-- Modelled from the spec: a descriptor sequence is valid when, replayed
in order against the already `defined` tensor names, every descriptor's
predecessor names are defined before use and its own name is fresh (the
spec's topological-order and name-uniqueness invariants). -/
def validSeq : List LayerDescriptor → List String → Bool
  | [], _ => true
  | d :: ds, defined =>
    d.parents.all (fun p => defined.contains p) &&
    !(defined.contains d.name) &&
    validSeq ds (d.name :: defined)

/-- All tensor nodes materialized by a restoration, to be handed back to
the serializer as the output set covering the whole restored graph. -/
def restoredNodes (env : List (String × GNode)) : List GNode :=
  env.map Prod.snd

/-- Environments produced by restoration: every binding maps a name to a
node carrying this name, and the parents of every materialized node are
themselves materialized under their own names. -/
def goodEnv (env : List (String × GNode)) : Prop :=
  ∀ b ∈ env, b.2.name = b.1 ∧ ∀ q ∈ b.2.parents, env.lookup q.name = some q

/-! Training loops (`ce_loss.py` and `maki_loss.py`).  The tensor engine is
abstracted to oracles: `batchRun i j` is the session run of batch `j` of
epoch `i` (its training cost, or an exception), and `evalRun i` is the
`evaluate` call of epoch `i` (test error and test cost, or an exception).
Costs are rationals; the shuffling and progress bar do not affect the
returned histories and are omitted. -/

/-- The four history lists returned by `fit_ce` / `fit_maki` in their
`finally` blocks, under the keys `train costs`, `train errors`,
`test costs` and `test errors`. -/
structure TrainResult where
  trainCosts : List ℚ
  trainErrors : List ℚ
  testCosts : List ℚ
  testErrors : List ℚ
deriving DecidableEq, Repr

/-- Inner batch loop shared by `fit_ce` and `fit_maki`: starting from batch
index `j` with `n` batches left and state `(train_cost, train_error)`, run
each batch and fold the exponential cost decay
`train_cost = 0.99 * train_cost + 0.01 * train_cost_batch`; the
`train_error` component is initialized by the caller and never updated by
the loop body.  `none` signals an exception escaping to the `except`
handler. -/
def batchGo (run : ℕ → Except String ℚ) : ℕ → ℕ → ℚ × ℚ → Option (ℚ × ℚ)
  | _, 0, st => some st
  | j, n + 1, (tc, te) =>
    match run j with
    | .error _ => none
    | .ok c => batchGo run (j + 1) n (99 / 100 * tc + 1 / 100 * c, te)

/-- Batch loop of one epoch: `train_cost = 0`, `train_error = 0`, then `n`
batches. -/
def batchLoop (run : ℕ → Except String ℚ) (n : ℕ) : Option (ℚ × ℚ) :=
  batchGo run 0 n (0, 0)

/-- Epoch loop of `CETrainingModule.fit_ce`, epoch `i` with `k` epochs left:
run the batch loop; on an exception return the histories accumulated so
far (the `except` handler prints and the `finally` block returns).  On a
test epoch (`test_period != -1 and i % test_period == 0`; `test_period = 0`
raises a `ZeroDivisionError`, likewise caught), evaluate and append the
test error, test cost, train cost and train error; `fit_ce` appends to all
four lists only inside the test block. -/
def fitCEGo (batchRun : ℕ → ℕ → Except String ℚ) (evalRun : ℕ → Except String (ℚ × ℚ))
    (nBatches : ℕ) (testPeriod : ℤ) : ℕ → ℕ → TrainResult → TrainResult
  | _, 0, st => st
  | i, k + 1, st =>
    match batchLoop (batchRun i) nBatches with
    | none => st
    | some (tc, te) =>
      if testPeriod = -1 then
        fitCEGo batchRun evalRun nBatches testPeriod (i + 1) k st
      else if testPeriod = 0 then
        st
      else if (i : ℤ) % testPeriod = 0 then
        match evalRun i with
        | .error _ => st
        | .ok (terr, tcost) =>
          fitCEGo batchRun evalRun nBatches testPeriod (i + 1) k
            { st with
              testErrors := st.testErrors ++ [terr],
              testCosts := st.testCosts ++ [tcost],
              trainCosts := st.trainCosts ++ [tc],
              trainErrors := st.trainErrors ++ [te] }
      else
        fitCEGo batchRun evalRun nBatches testPeriod (i + 1) k st

/-- Transcription of `CETrainingModule.fit_ce` after the training op is
built: run `epochs` epochs starting from empty histories and return the
dictionary of the four lists. -/
def fitCE (batchRun : ℕ → ℕ → Except String ℚ) (evalRun : ℕ → Except String (ℚ × ℚ))
    (nBatches : ℕ) (testPeriod : ℤ) (epochs : ℕ) : TrainResult :=
  fitCEGo batchRun evalRun nBatches testPeriod 0 epochs ⟨[], [], [], []⟩

/-- Epoch loop of `MakiTrainingModule.fit_maki`: as in `fit_ce`, except
that the train cost and train error of the epoch are appended before the
test-period check, on every completed epoch. -/
def fitMakiGo (batchRun : ℕ → ℕ → Except String ℚ) (evalRun : ℕ → Except String (ℚ × ℚ))
    (nBatches : ℕ) (testPeriod : ℤ) : ℕ → ℕ → TrainResult → TrainResult
  | _, 0, st => st
  | i, k + 1, st =>
    match batchLoop (batchRun i) nBatches with
    | none => st
    | some (tc, te) =>
      let st1 := { st with
        trainCosts := st.trainCosts ++ [tc],
        trainErrors := st.trainErrors ++ [te] }
      if testPeriod = -1 then
        fitMakiGo batchRun evalRun nBatches testPeriod (i + 1) k st1
      else if testPeriod = 0 then
        st1
      else if (i : ℤ) % testPeriod = 0 then
        match evalRun i with
        | .error _ => st1
        | .ok (terr, tcost) =>
          fitMakiGo batchRun evalRun nBatches testPeriod (i + 1) k
            { st1 with
              testErrors := st1.testErrors ++ [terr],
              testCosts := st1.testCosts ++ [tcost] }
      else
        fitMakiGo batchRun evalRun nBatches testPeriod (i + 1) k st1

/-- Transcription of `MakiTrainingModule.fit_maki` after the training op is
built. -/
def fitMaki (batchRun : ℕ → ℕ → Except String ℚ) (evalRun : ℕ → Except String (ℚ × ℚ))
    (nBatches : ℕ) (testPeriod : ℤ) (epochs : ℕ) : TrainResult :=
  fitMakiGo batchRun evalRun nBatches testPeriod 0 epochs ⟨[], [], [], []⟩

/-! Theorems. -/

/-- C2: for every StemBlock configuration `out_f = [f0, f1, f2]` applied to
an input of the declared depth, the final output depth is `f2 * 4`, the
branch spatial dimensions agree at each of the three concatenation points,
and `out_f = [32, 64, 96]` on a 299x299x3 input yields `(35, 35, 384)`. -/
theorem stem_output_depth (c : StemConf) (s : Shape) (hin : s.2.2 = c.in_f) :
    (stemOut c s).2.2 = c.f2 * 4 ∧
    (stemSplit1Conv c s).1 = (stemSplit1Pool c s).1 ∧
    (stemSplit1Conv c s).2.1 = (stemSplit1Pool c s).2.1 ∧
    (stemSplit2Right c s).1 = (stemSplit2Left c s).1 ∧
    (stemSplit2Right c s).2.1 = (stemSplit2Left c s).2.1 ∧
    (stemSplit3Pool c s).1 = (stemSplit3Conv c s).1 ∧
    (stemSplit3Pool c s).2.1 = (stemSplit3Conv c s).2.1 ∧
    stemOut ⟨3, 32, 64, 96⟩ (299, 299, 3) = (35, 35, 384) := by
  obtain ⟨hh, ww, cc⟩ := s
  refine ⟨?_, ?_, ?_, ?_, ?_, ?_, ?_, by decide⟩ <;>
    simp [stemOut, stemSplit3Pool, stemSplit3Conv, stemMerge2, stemSplit2Right,
      stemSplit2Left, stemMerge1, stemSplit1Conv, stemSplit1Pool, stemAfterConv3,
      stemAfterConv2, stemAfterConv1, convShape, maxPoolShape, concatShape, convSize,
      activationShape, batchNormShape]
  omega

/-- Witness for `stem_output_depth` at `out_f = [32, 64, 96]`,
input 299x299x3. -/
theorem stem_output_depth_witness :
    ((299, 299, 3) : Shape).2.2 = (⟨3, 32, 64, 96⟩ : StemConf).in_f ∧
    (stemOut ⟨3, 32, 64, 96⟩ (299, 299, 3)).2.2 = 96 * 4 :=
  ⟨by decide, (stem_output_depth ⟨3, 32, 64, 96⟩ (299, 299, 3) (by decide)).1⟩

/-- C3: a VALID convolution with kernel `k` and stride `s` over input size
`w ≥ k` produces output size `(w - k) / s + 1`; the StemBlock's first
convolution (3x3, stride 2, VALID, `out_f[0]` maps) maps an input of
spatial size `hh x ww` to `((hh-3)/2+1) x ((ww-3)/2+1)` with depth
`out_f[0]`, in particular 299x299x3 to 149x149x32. -/
theorem conv_valid_output_size :
    (∀ k s w : ℕ, 0 < s → k ≤ w → convSize k s Padding.valid w = (w - k) / s + 1) ∧
    (∀ (c : StemConf) (hh ww : ℕ), 3 ≤ hh → 3 ≤ ww →
      stemAfterConv1 c (hh, ww, c.in_f) = ((hh - 3) / 2 + 1, (ww - 3) / 2 + 1, c.f0)) ∧
    stemAfterConv1 ⟨3, 32, 64, 96⟩ (299, 299, 3) = (149, 149, 32) := by
  refine ⟨fun k s w _ _ => rfl, fun c hh ww _ _ => ?_, by decide⟩
  simp [stemAfterConv1, convShape, convSize, activationShape, batchNormShape]

/-- Witness for `conv_valid_output_size` at kernel 3, stride 2, input 299. -/
theorem conv_valid_output_size_witness :
    (0 < 2 ∧ 3 ≤ 299) ∧
    convSize 3 2 Padding.valid 299 = (299 - 3) / 2 + 1 ∧
    stemAfterConv1 ⟨3, 32, 64, 96⟩ (299, 299, 3) =
      ((299 - 3) / 2 + 1, (299 - 3) / 2 + 1, 32) :=
  ⟨⟨by decide, by decide⟩,
   conv_valid_output_size.1 3 2 299 (by decide) (by decide),
   conv_valid_output_size.2.1 ⟨3, 32, 64, 96⟩ 299 299 (by decide) (by decide)⟩

/-- C5: concatenation along the feature axis preserves the branches' common
spatial dimensions and sums their depths; the StemBlock's first merge has
depth `out_f[1] + out_f[2]` and its second merge has depth `out_f[2] * 2`. -/
theorem concat_depth_sum (c : StemConf) (s : Shape) :
    (∀ h w c1 c2 : ℕ, concatShape (h, w, c1) (h, w, c2) = (h, w, c1 + c2)) ∧
    (stemMerge1 c s).1 = (stemSplit1Conv c s).1 ∧
    (stemMerge1 c s).1 = (stemSplit1Pool c s).1 ∧
    (stemMerge1 c s).2.1 = (stemSplit1Conv c s).2.1 ∧
    (stemMerge1 c s).2.1 = (stemSplit1Pool c s).2.1 ∧
    (stemMerge1 c s).2.2 = c.f1 + c.f2 ∧
    (stemMerge2 c s).2.2 = c.f2 * 2 := by
  obtain ⟨hh, ww, cc⟩ := s
  refine ⟨fun h w c1 c2 => rfl, ?_, ?_, ?_, ?_, ?_, ?_⟩ <;>
    simp [stemMerge2, stemSplit2Right, stemSplit2Left, stemMerge1, stemSplit1Conv,
      stemSplit1Pool, stemAfterConv3, stemAfterConv2, stemAfterConv1, convShape,
      maxPoolShape, concatShape, convSize, activationShape, batchNormShape] <;> omega

/-- Counterexample to C6 as stated: at the first merge of
`StemBlock.forward` the convolution branch's channels precede the pooling
branch's channels, not the other way around as the spec's stated convention
has it. -/
theorem concat_order_counterexample :
    stemMerge1Channels ⟨3, 1, 1, 1⟩ ["x"] ≠ specMerge1Channels ⟨3, 1, 1, 1⟩ ["x"] := by
  decide

/-- C6 amended: at each of the three merge points of `StemBlock.forward`
the channel order is fixed and identical on every call, with the `FX`
operand of `tf.concat` first: at the first merge the convolution branch
(`conv3_R_1`) precedes the pooling branch, at the second the factored right
branch (`conv4_R_4`) precedes the left branch (`conv4_L_2`), and at the
third the pooling branch precedes the `conv5_L_1` branch. -/
theorem stem_concat_order (c : StemConf) (x : Channels) :
    stemMerge1Channels c x =
      List.replicate c.f2 "conv3_R_1" ++ List.replicate c.f1 "conv3" ∧
    stemMerge2Channels c x =
      List.replicate c.f2 "conv4_R_4" ++ List.replicate c.f2 "conv4_L_2" ∧
    stemMerge3Channels c x =
      stemMerge2Channels c x ++ List.replicate (c.f2 * 2) "conv5_L_1" :=
  ⟨rfl, rfl, rfl⟩

/-- Keys of `dictInsert`: inserting an existing key keeps the key list,
inserting a fresh key appends it. -/
theorem map_fst_dictInsert {α : Type} (d : List (String × α)) (k : String) (v : α) :
    (dictInsert d k v).map Prod.fst =
      if k ∈ d.map Prod.fst then d.map Prod.fst
      else d.map Prod.fst ++ [k] := by
  induction d with
  | nil => simp [dictInsert]
  | cons p d ih =>
    by_cases hpk : p.1 = k
    · simp [dictInsert, hpk]
    · have hne : k ≠ p.1 := fun hc => hpk hc.symm
      by_cases hmem : k ∈ d.map Prod.fst
      · simp [dictInsert, hpk, hmem, hne, ih]
      · simp [dictInsert, hpk, hmem, hne, ih]

/-- Lookup after `dictInsert` returns the newly inserted value. -/
theorem lookup_dictInsert_self {α : Type} (d : List (String × α)) (k : String) (v : α) :
    (dictInsert d k v).lookup k = some v := by
  induction d with
  | nil => simp [dictInsert, List.lookup]
  | cons p d ih =>
    by_cases hpk : p.1 = k
    · simp [dictInsert, hpk, List.lookup]
    · have hne : (k == p.1) = false := by
        simp only [beq_eq_false_iff_ne, ne_eq]
        exact fun hc => hpk hc.symm
      simp [dictInsert, hpk, List.lookup, hne, ih]

/-- Counterexample to C4 as stated: two layers registering a parameter
under the same fully-qualified name (as the two identically named
`PointsClassifier` heads of `ClassRegHead._setup_heads` do) raise no error;
the dictionary merge of `StemBlock.__init__` keeps the later tensor and the
earlier one is silently overwritten. -/
theorem param_register_counterexample :
    (buildParamsDict [[("PointsClassifier/0/W", 1)], [("PointsClassifier/0/W", 2)]]).lookup
        "PointsClassifier/0/W" = some 2 ∧ (2 : ℕ) ≠ 1 := by
  decide

/-- C4 amended: registering a parameter under an existing name does not
fail; the registry silently keeps the most recently registered tensor,
containing the name exactly once (key lists stay duplicate-free), and two
single-parameter layers sharing a name leave only the later binding. -/
theorem param_register_overwrites {α : Type} (d : List (String × α)) (k : String) (v : α) :
    (dictInsert d k v).lookup k = some v ∧
    ((d.map Prod.fst).Nodup → ((dictInsert d k v).map Prod.fst).Nodup) ∧
    (∀ v1 v2 : α, buildParamsDict [[(k, v1)], [(k, v2)]] = [(k, v2)]) := by
  refine ⟨lookup_dictInsert_self d k v, ?_, ?_⟩
  · intro hnd
    rw [map_fst_dictInsert]
    split
    · exact hnd
    · rename_i h
      simp [List.nodup_append, hnd, h]
  · intro v1 v2
    simp [buildParamsDict, dictUpdate, dictInsert]

/-- Witness for `param_register_overwrites` on a one-entry registry. -/
theorem param_register_overwrites_witness :
    (([("a", 1)] : List (String × ℕ)).map Prod.fst).Nodup ∧
    (dictInsert [("a", 1)] "b" 5).lookup "b" = some 5 ∧
    ((dictInsert [("a", 1)] "b" 5).map Prod.fst).Nodup :=
  ⟨by decide, (param_register_overwrites [("a", 1)] "b" 5).1,
   (param_register_overwrites [("a", 1)] "b" 5).2.1 (by decide)⟩

/-- C7: `ClassRegHead` construction checks the heights and widths of its
three feature sources before any head is built: when they all agree the
check passes and the heads are created (channel depths are free to differ);
otherwise construction aborts with an error naming the two offending
sources and carrying their differing `(height, width)` pairs. -/
theorem branch_shape_check (np : ℕ) (nm : String)
    (b1 ch cw c1 b2 rh rw c2 b3 hh hw c3 : ℕ) :
    ((ch = rh ∧ cw = rw ∧ ch = hh ∧ cw = hw) →
      classRegHeadInit np nm (b1, ch, cw, c1) (b2, rh, rw, c2) (b3, hh, hw, c3) =
        Except.ok (setupHeads np nm (b1, ch, cw, c1) (b2, rh, rw, c2) (b3, hh, hw, c3))) ∧
    (¬(ch = rh ∧ cw = rw ∧ ch = hh ∧ cw = hw) →
      ∃ e, classRegHeadInit np nm (b1, ch, cw, c1) (b2, rh, rw, c2) (b3, hh, hw, c3) =
        Except.error e ∧ e.firstDims ≠ e.secondDims) := by
  constructor
  · rintro ⟨h1, h2, h3, h4⟩
    subst h1
    subst h2
    subst h3
    subst h4
    simp [classRegHeadInit, checkDimensionality, Except.map]
  · intro hne
    by_cases h1 : ch = rh ∧ cw = rw
    · obtain ⟨ha, hb⟩ := h1
      subst ha
      subst hb
      by_cases h2 : ch = hh ∧ cw = hw
      · exact absurd ⟨rfl, rfl, h2.1, h2.2⟩ hne
      · refine ⟨⟨"class_f", "human_indicator_f", (ch, cw), (hh, hw)⟩, ?_, ?_⟩
        · simp [classRegHeadInit, checkDimensionality, Except.map, h2]
        · simpa [Prod.ext_iff] using h2
    · refine ⟨⟨"class_f", "reg_f", (ch, cw), (rh, rw)⟩, ?_, ?_⟩
      · simp only [classRegHeadInit, checkDimensionality, Except.map]
        rw [if_neg h1]
      · simpa [Prod.ext_iff] using h1

/-- Witness for `branch_shape_check`: `class_f` is 10x12 while `reg_f` is
11x12, so construction fails with the offending dimensions in the error. -/
theorem branch_shape_check_witness :
    (¬((10 : ℕ) = 11 ∧ (12 : ℕ) = 12 ∧ (10 : ℕ) = 10 ∧ (12 : ℕ) = 12)) ∧
    (∃ e, classRegHeadInit 2 "0" (1, 10, 12, 3) (1, 11, 12, 5) (1, 10, 12, 7) =
      Except.error e ∧ e.firstDims ≠ e.secondDims) :=
  ⟨by decide, (branch_shape_check 2 "0" 1 10 12 3 1 11 12 5 1 10 12 7).2 (by decide)⟩

/-- Counterexample to C8 as stated: the top-level model-info fields written
by `_get_model_info` are keyed `in_x`, `out_x` and `name` (the values of
`Regressor.INPUT/OUTPUT/NAME`), not `input_name`, `output_name`,
`model_name`. -/
theorem architecture_field_names_counterexample :
    (getModelInfo ⟨GNode.node "i" "Input" [], GNode.node "o" "Out" [], "m"⟩).map Prod.fst ≠
      ["input_name", "output_name", "model_name"] := by
  decide

/-- C8 amended: the serialized model info's top-level fields are named
`in_x`, `out_x` and `name`; layer descriptors carry the kind tag under
`type` and a `params` record whose first entry is `name`; `from_json` reads
exactly these model-info keys (a missing `out_x` key makes the load fail). -/
theorem architecture_field_names :
    Regressor.INPUT = "in_x" ∧ Regressor.OUTPUT = "out_x" ∧ Regressor.NAME = "name" ∧
    (∀ m : RegressorModel, (getModelInfo m).map Prod.fst = ["in_x", "out_x", "name"]) ∧
    (∀ (c : StemConf) (nm act : String),
      (stemToDict c nm act).1 = "StemBlock" ∧
      (stemToDict c nm act).2.map Prod.fst = ["name", "in_f", "out_f", "activation"]) ∧
    (∀ (mi : List (String × String)) (gi : List LayerDescriptor),
      mi.lookup Regressor.OUTPUT = none → fromJson (mi, gi) = none) := by
  refine ⟨rfl, rfl, rfl, fun m => rfl, fun c nm act => ⟨rfl, rfl⟩, ?_⟩
  intro mi gi h
  simp [fromJson, h]

/-- Witness for `architecture_field_names`: loading from an empty model
info fails. -/
theorem architecture_field_names_witness :
    (([] : List (String × String)).lookup Regressor.OUTPUT = none) ∧
    fromJson (([] : List (String × String)), ([] : List LayerDescriptor)) = none :=
  ⟨rfl, architecture_field_names.2.2.2.2.2 [] [] rfl⟩

/-- The batch loop never modifies the `train_error` component of its
state. -/
theorem batchGo_snd (run : ℕ → Except String ℚ) :
    ∀ (n j : ℕ) (tc te : ℚ) (st : ℚ × ℚ), batchGo run j n (tc, te) = some st → st.2 = te := by
  intro n
  induction n with
  | zero =>
    intro j tc te st h
    simp only [batchGo, Option.some.injEq] at h
    rw [← h]
  | succ n ih =>
    intro j tc te st h
    simp only [batchGo] at h
    cases hr : run j with
    | error e => rw [hr] at h; simp at h
    | ok c => rw [hr] at h; exact ih (j + 1) _ te st h

/-- The batch loop starts each epoch with `train_error = 0` and leaves it
at zero. -/
theorem batchLoop_snd (run : ℕ → Except String ℚ) (n : ℕ) (st : ℚ × ℚ)
    (h : batchLoop run n = some st) : st.2 = 0 :=
  batchGo_snd run n 0 0 0 st h

/-- Every entry appended to `train errors` by the `fit_ce` epoch loop is
the untouched zero accumulator. -/
theorem fitCEGo_trainErrors_zero (br : ℕ → ℕ → Except String ℚ)
    (ev : ℕ → Except String (ℚ × ℚ)) (nB : ℕ) (tp : ℤ) :
    ∀ (k i : ℕ) (st : TrainResult), (∀ x ∈ st.trainErrors, x = 0) →
      ∀ x ∈ (fitCEGo br ev nB tp i k st).trainErrors, x = 0 := by
  intro k
  induction k with
  | zero =>
    intro i st hst
    simpa [fitCEGo] using hst
  | succ k ih =>
    intro i st hst
    cases hbl : batchLoop (br i) nB with
    | none => simp only [fitCEGo, hbl]; exact hst
    | some p =>
      obtain ⟨tc, te⟩ := p
      have hte : te = 0 := batchLoop_snd (br i) nB (tc, te) hbl
      simp only [fitCEGo, hbl]
      split_ifs with h1 h2 h3
      · exact ih (i + 1) st hst
      · exact hst
      · cases hev : ev i with
        | error e => simp only [hev]; exact hst
        | ok q =>
          obtain ⟨terr, tcost⟩ := q
          simp only [hev]
          refine ih (i + 1) _ ?_
          intro x hx
          rcases List.mem_append.mp hx with hx | hx
          · exact hst x hx
          · rw [List.mem_singleton.mp hx, hte]
      · exact ih (i + 1) st hst

/-- Every entry appended to `train errors` by the `fit_maki` epoch loop is
the untouched zero accumulator. -/
theorem fitMakiGo_trainErrors_zero (br : ℕ → ℕ → Except String ℚ)
    (ev : ℕ → Except String (ℚ × ℚ)) (nB : ℕ) (tp : ℤ) :
    ∀ (k i : ℕ) (st : TrainResult), (∀ x ∈ st.trainErrors, x = 0) →
      ∀ x ∈ (fitMakiGo br ev nB tp i k st).trainErrors, x = 0 := by
  intro k
  induction k with
  | zero =>
    intro i st hst
    simpa [fitMakiGo] using hst
  | succ k ih =>
    intro i st hst
    cases hbl : batchLoop (br i) nB with
    | none => simp only [fitMakiGo, hbl]; exact hst
    | some p =>
      obtain ⟨tc, te⟩ := p
      have hte : te = 0 := batchLoop_snd (br i) nB (tc, te) hbl
      have hst1 : ∀ x ∈ st.trainErrors ++ [te], x = 0 := by
        intro x hx
        rcases List.mem_append.mp hx with hx | hx
        · exact hst x hx
        · rw [List.mem_singleton.mp hx, hte]
      simp only [fitMakiGo, hbl]
      split_ifs with h1 h2 h3
      · exact ih (i + 1) _ hst1
      · exact hst1
      · cases hev : ev i with
        | error e => simp only [hev]; exact hst1
        | ok q =>
          obtain ⟨terr, tcost⟩ := q
          simp only [hev]
          exact ih (i + 1) _ hst1
      · exact ih (i + 1) _ hst1

/-- C10: for every completed call to `fit_ce` or `fit_maki`, every element
of the returned `train errors` list is zero — the `train_error` accumulator
is initialized to zero each epoch and never updated by the batch loop — so
the train accuracy `1 - train_error` reported each test period is always 1. -/
theorem train_errors_always_zero (br : ℕ → ℕ → Except String ℚ)
    (ev : ℕ → Except String (ℚ × ℚ)) (nB : ℕ) (tp : ℤ) (epochs : ℕ) :
    (∀ x ∈ (fitCE br ev nB tp epochs).trainErrors, x = 0) ∧
    (∀ x ∈ (fitMaki br ev nB tp epochs).trainErrors, x = 0) ∧
    (∀ x ∈ (fitCE br ev nB tp epochs).trainErrors, 1 - x = 1) ∧
    (∀ x ∈ (fitMaki br ev nB tp epochs).trainErrors, 1 - x = 1) := by
  have h1 := fitCEGo_trainErrors_zero br ev nB tp epochs 0 ⟨[], [], [], []⟩ (by simp)
  have h2 := fitMakiGo_trainErrors_zero br ev nB tp epochs 0 ⟨[], [], [], []⟩ (by simp)
  exact ⟨h1, h2,
    fun x hx => by rw [h1 x hx]; norm_num,
    fun x hx => by rw [h2 x hx]; norm_num⟩

/-- Witness for `train_errors_always_zero` on a one-epoch run with an
immediately tested epoch. -/
theorem train_errors_always_zero_witness :
    (0 : ℚ) ∈ (fitCE (fun _ _ => Except.ok 0) (fun _ => Except.ok (0, 0)) 0 1 1).trainErrors ∧
    (0 : ℚ) ∈ (fitMaki (fun _ _ => Except.ok 0) (fun _ => Except.ok (0, 0)) 0 1 1).trainErrors ∧
    (0 : ℚ) = 0 ∧ 1 - (0 : ℚ) = 1 :=
  ⟨by decide, by decide,
   (train_errors_always_zero (fun _ _ => Except.ok 0) (fun _ => Except.ok (0, 0)) 0 1 1).1
     0 (by decide),
   (train_errors_always_zero (fun _ _ => Except.ok 0) (fun _ => Except.ok (0, 0)) 0 1 1).2.2.2
     0 (by decide)⟩

/-- Truncation of the `fit_ce` epoch loop at the first batch exception:
when the epochs before `i + k` finish normally and the batch loop of epoch
`i + k` raises, running any `k + m` epochs from `i` equals running `k`. -/
theorem fitCEGo_truncate (br : ℕ → ℕ → Except String ℚ)
    (ev : ℕ → Except String (ℚ × ℚ)) (nB : ℕ) (tp : ℤ) :
    ∀ (k i m : ℕ) (st : TrainResult), 0 < m →
      (∀ j, i ≤ j → j < i + k →
        (∃ p, batchLoop (br j) nB = some p) ∧
        (tp ≠ -1 → tp ≠ 0 → (j : ℤ) % tp = 0 → ∃ q, ev j = Except.ok q)) →
      batchLoop (br (i + k)) nB = none →
      fitCEGo br ev nB tp i (k + m) st = fitCEGo br ev nB tp i k st := by
  intro k
  induction k with
  | zero =>
    intro i m st hm hpre hfail
    obtain ⟨m', rfl⟩ : ∃ m', m = m' + 1 := ⟨m - 1, by omega⟩
    rw [Nat.add_zero] at hfail
    rw [Nat.zero_add]
    simp only [fitCEGo, hfail]
  | succ k ih =>
    intro i m st hm hpre hfail
    have hks : k + 1 + m = (k + m) + 1 := by omega
    rw [hks]
    obtain ⟨⟨p, hp⟩, hev⟩ := hpre i (le_refl i) (by omega)
    obtain ⟨tc, te⟩ := p
    have hfail' : batchLoop (br (i + 1 + k)) nB = none := by
      have hi : i + 1 + k = i + (k + 1) := by omega
      rw [hi]
      exact hfail
    have hpre' : ∀ j, i + 1 ≤ j → j < i + 1 + k →
        (∃ p, batchLoop (br j) nB = some p) ∧
        (tp ≠ -1 → tp ≠ 0 → (j : ℤ) % tp = 0 → ∃ q, ev j = Except.ok q) :=
      fun j hj1 hj2 => hpre j (by omega) (by omega)
    simp only [fitCEGo, hp]
    split_ifs with h1 h2 h3
    · exact ih (i + 1) m st hm hpre' hfail'
    · rfl
    · obtain ⟨q, hq⟩ := hev h1 h2 h3
      obtain ⟨terr, tcost⟩ := q
      simp only [hq]
      exact ih (i + 1) m _ hm hpre' hfail'
    · exact ih (i + 1) m st hm hpre' hfail'

/-- Truncation of the `fit_maki` epoch loop at the first batch exception. -/
theorem fitMakiGo_truncate (br : ℕ → ℕ → Except String ℚ)
    (ev : ℕ → Except String (ℚ × ℚ)) (nB : ℕ) (tp : ℤ) :
    ∀ (k i m : ℕ) (st : TrainResult), 0 < m →
      (∀ j, i ≤ j → j < i + k →
        (∃ p, batchLoop (br j) nB = some p) ∧
        (tp ≠ -1 → tp ≠ 0 → (j : ℤ) % tp = 0 → ∃ q, ev j = Except.ok q)) →
      batchLoop (br (i + k)) nB = none →
      fitMakiGo br ev nB tp i (k + m) st = fitMakiGo br ev nB tp i k st := by
  intro k
  induction k with
  | zero =>
    intro i m st hm hpre hfail
    obtain ⟨m', rfl⟩ : ∃ m', m = m' + 1 := ⟨m - 1, by omega⟩
    rw [Nat.add_zero] at hfail
    rw [Nat.zero_add]
    simp only [fitMakiGo, hfail]
  | succ k ih =>
    intro i m st hm hpre hfail
    have hks : k + 1 + m = (k + m) + 1 := by omega
    rw [hks]
    obtain ⟨⟨p, hp⟩, hev⟩ := hpre i (le_refl i) (by omega)
    obtain ⟨tc, te⟩ := p
    have hfail' : batchLoop (br (i + 1 + k)) nB = none := by
      have hi : i + 1 + k = i + (k + 1) := by omega
      rw [hi]
      exact hfail
    have hpre' : ∀ j, i + 1 ≤ j → j < i + 1 + k →
        (∃ p, batchLoop (br j) nB = some p) ∧
        (tp ≠ -1 → tp ≠ 0 → (j : ℤ) % tp = 0 → ∃ q, ev j = Except.ok q) :=
      fun j hj1 hj2 => hpre j (by omega) (by omega)
    simp only [fitMakiGo, hp]
    split_ifs with h1 h2 h3
    · exact ih (i + 1) m _ hm hpre' hfail'
    · rfl
    · obtain ⟨q, hq⟩ := hev h1 h2 h3
      obtain ⟨terr, tcost⟩ := q
      simp only [hq]
      exact ih (i + 1) m _ hm hpre' hfail'
    · exact ih (i + 1) m _ hm hpre' hfail'

/-- C9: once training starts, a batch exception in the middle of epoch `i`
is not propagated: both `fit_ce` and `fit_maki` return (from their
`finally` blocks) the dictionary of the four history lists — `train costs`,
`train errors`, `test costs`, `test errors` — exactly as accumulated by the
epochs that completed before the exception. -/
theorem fit_exception_contained (br : ℕ → ℕ → Except String ℚ)
    (ev : ℕ → Except String (ℚ × ℚ)) (nB : ℕ) (tp : ℤ) (epochs i : ℕ)
    (hi : i < epochs)
    (hpre : ∀ j, j < i →
      (∃ p, batchLoop (br j) nB = some p) ∧
      (tp ≠ -1 → tp ≠ 0 → (j : ℤ) % tp = 0 → ∃ q, ev j = Except.ok q))
    (hfail : batchLoop (br i) nB = none) :
    fitCE br ev nB tp epochs = fitCE br ev nB tp i ∧
    fitMaki br ev nB tp epochs = fitMaki br ev nB tp i := by
  have hm : epochs = i + (epochs - i) := by omega
  have hpre0 : ∀ j, 0 ≤ j → j < 0 + i →
      (∃ p, batchLoop (br j) nB = some p) ∧
      (tp ≠ -1 → tp ≠ 0 → (j : ℤ) % tp = 0 → ∃ q, ev j = Except.ok q) :=
    fun j _ hj => hpre j (by omega)
  have hfail0 : batchLoop (br (0 + i)) nB = none := by
    rw [Nat.zero_add]
    exact hfail
  constructor
  · unfold fitCE
    rw [hm]
    exact fitCEGo_truncate br ev nB tp i 0 (epochs - i) ⟨[], [], [], []⟩ (by omega) hpre0 hfail0
  · unfold fitMaki
    rw [hm]
    exact fitMakiGo_truncate br ev nB tp i 0 (epochs - i) ⟨[], [], [], []⟩ (by omega) hpre0 hfail0

/-- Witness for `fit_exception_contained`: the very first batch raises, so
a two-epoch run returns the same (empty) histories as a zero-epoch run. -/
theorem fit_exception_contained_witness :
    (0 < 2) ∧
    batchLoop ((fun (_ _ : ℕ) => Except.error "boom") 0) 1 = none ∧
    fitCE (fun _ _ => Except.error "boom") (fun _ => Except.ok (0, 0)) 1 (-1) 2 =
      fitCE (fun _ _ => Except.error "boom") (fun _ => Except.ok (0, 0)) 1 (-1) 0 ∧
    fitMaki (fun _ _ => Except.error "boom") (fun _ => Except.ok (0, 0)) 1 (-1) 2 =
      fitMaki (fun _ _ => Except.error "boom") (fun _ => Except.ok (0, 0)) 1 (-1) 0 :=
  have h := fit_exception_contained (fun _ _ => Except.error "boom")
    (fun _ => Except.ok (0, 0)) 1 (-1) 2 0 (by decide)
    (fun j hj => absurd hj (Nat.not_lt_zero j)) (by decide)
  ⟨by decide, by decide, h.1, h.2⟩

/-- Every node is among its own subnodes. -/
theorem subnodes_self (g : GNode) : g ∈ subnodes g := by
  cases g with
  | node n c ps =>
    rw [subnodes]
    exact List.mem_cons_self _ _

/-- Membership in the subnodes of a list of roots. -/
theorem mem_subnodesL {y : GNode} : ∀ {l : List GNode},
    y ∈ subnodesL l ↔ ∃ p ∈ l, y ∈ subnodes p := by
  intro l
  induction l with
  | nil => simp [subnodesL]
  | cons p ps ih =>
    rw [subnodesL]
    simp only [List.mem_append, ih, List.mem_cons]
    constructor
    · rintro (h | ⟨q, hq, hyq⟩)
      · exact ⟨p, Or.inl rfl, h⟩
      · exact ⟨q, Or.inr hq, hyq⟩
    · rintro ⟨q, hq | hq, hyq⟩
      · rw [hq] at hyq
        exact Or.inl hyq
      · exact Or.inr ⟨q, hq, hyq⟩

mutual

/-- Reachability through subnodes is transitive. -/
theorem subnodes_trans : ∀ (t x y : GNode), x ∈ subnodes t → y ∈ subnodes x → y ∈ subnodes t
  | .node n c ps, x, y, hx, hy => by
    rw [subnodes] at hx ⊢
    rcases List.mem_cons.mp hx with h | h
    · rw [h] at hy
      rw [subnodes] at hy
      exact hy
    · exact List.mem_cons_of_mem _ (subnodesL_trans ps x y h hy)

/-- Reachability through the subnodes of a root list is transitive. -/
theorem subnodesL_trans : ∀ (ts : List GNode) (x y : GNode),
    x ∈ subnodesL ts → y ∈ subnodes x → y ∈ subnodesL ts
  | [], x, y, hx, _ => by
    rw [subnodesL] at hx
    exact absurd hx (List.not_mem_nil x)
  | t :: ts, x, y, hx, hy => by
    rw [subnodesL] at hx ⊢
    rcases List.mem_append.mp hx with h | h
    · exact List.mem_append_left _ (subnodes_trans t x y h hy)
    · exact List.mem_append_right _ (subnodesL_trans ts x y h hy)

end

/-- The parents of a node are among its subnodes. -/
theorem parents_mem_subnodes (n c : String) {p : GNode} {ps : List GNode} (hp : p ∈ ps) :
    p ∈ subnodes (GNode.node n c ps) := by
  rw [subnodes]
  exact List.mem_cons_of_mem _ (mem_subnodesL.mpr ⟨p, hp, subnodes_self p⟩)

/-- Invariant tying the serializer's visited-name list to the restorer's
environment: every visited name is materialized in the environment as the
(unique) node of the graph carrying it, and the visited set is closed under
subnodes. -/
def envOK (T : GNode) (vis : List String) (env : List (String × GNode)) : Prop :=
  (∀ nm ∈ vis, ∃ g, g ∈ subnodes T ∧ g.name = nm ∧ env.lookup nm = some g) ∧
  (∀ g ∈ subnodes T, g.name ∈ vis → ∀ y ∈ subnodes g, y.name ∈ vis)

/-- Restoration of an appended descriptor list is the composition of the
restorations. -/
theorem restoreGraph_append : ∀ (as bs : List LayerDescriptor) (env : List (String × GNode)),
    restoreGraph (as ++ bs) env = (restoreGraph as env).bind (restoreGraph bs) := by
  intro as
  induction as with
  | nil =>
    intro bs env
    rfl
  | cons a as ih =>
    intro bs env
    rw [List.cons_append]
    simp only [restoreGraph]
    cases h : lookupNodes env a.parents with
    | none => rfl
    | some ps => exact ih bs ((a.name, GNode.node a.name a.cfg ps) :: env)

/-- A parent-name list resolves to the expected nodes when the environment
maps each name to its node. -/
theorem lookupNodes_of_lookup (env : List (String × GNode)) :
    ∀ (ps : List GNode), (∀ p ∈ ps, env.lookup p.name = some p) →
      lookupNodes env (ps.map GNode.name) = some ps := by
  intro ps
  induction ps with
  | nil => intro _; rfl
  | cons p ps ih =>
    intro h
    simp only [List.map_cons, lookupNodes]
    rw [h p (List.mem_cons_self p ps), ih fun q hq => h q (List.mem_cons_of_mem p hq)]

mutual

/-- Restoring the descriptors emitted for one node succeeds and extends the
environment while preserving the invariant; afterwards the node's name is
visited. -/
theorem serNode_restore : ∀ (T x : GNode), wfGraph T → x ∈ subnodes T →
    ∀ (vis : List String) (env : List (String × GNode)), envOK T vis env →
    ∃ env', restoreGraph (serNode x vis).1 env = some env' ∧
      envOK T (serNode x vis).2 env' ∧
      vis ⊆ (serNode x vis).2 ∧
      x.name ∈ (serNode x vis).2
  | T, .node n c ps, hwf, hx, vis, env, henv => by
    by_cases hn : n ∈ vis
    · have hser : serNode (GNode.node n c ps) vis = ([], vis) := by
        rw [serNode, if_pos hn]
      rw [hser]
      exact ⟨env, rfl, henv, fun a ha => ha, hn⟩
    · have hser : serNode (GNode.node n c ps) vis =
          ((serList ps vis).1 ++ [⟨n, c, ps.map GNode.name⟩], n :: (serList ps vis).2) := by
        rw [serNode, if_neg hn]
      have hps : ∀ p ∈ ps, p ∈ subnodes T :=
        fun p hp => subnodes_trans T (GNode.node n c ps) p hx (parents_mem_subnodes n c hp)
      obtain ⟨env1, hrest1, henv1, hvis1, hnames⟩ := serList_restore T ps hwf hps vis env henv
      rw [hser]
      have hlook : ∀ p ∈ ps, env1.lookup p.name = some p := by
        intro p hp
        obtain ⟨g, hgT, hgname, hglook⟩ := henv1.1 p.name (hnames p hp)
        have hgp : g = p := hwf g hgT p (hps p hp) hgname
        rw [hgp] at hglook
        exact hglook
      refine ⟨(n, GNode.node n c ps) :: env1, ?_, ⟨?_, ?_⟩, ?_, List.mem_cons_self _ _⟩
      · rw [restoreGraph_append, hrest1]
        show restoreGraph [⟨n, c, ps.map GNode.name⟩] env1 = _
        simp only [restoreGraph, lookupNodes_of_lookup env1 ps hlook]
      · intro nm hnm
        by_cases hnmn : nm = n
        · subst hnmn
          exact ⟨GNode.node nm c ps, hx, rfl, by simp [List.lookup]⟩
        · have hnm2 : nm ∈ (serList ps vis).2 := by
            rcases List.mem_cons.mp hnm with h | h
            · exact absurd h hnmn
            · exact h
          obtain ⟨g, hgT, hgname, hglook⟩ := henv1.1 nm hnm2
          have hne : (nm == n) = false := by
            simp only [beq_eq_false_iff_ne, ne_eq]
            exact hnmn
          exact ⟨g, hgT, hgname, by simp [List.lookup, hne, hglook]⟩
      · intro g hgT hgname y hy
        rcases List.mem_cons.mp hgname with h | h
        · have hgx : g = GNode.node n c ps :=
            hwf g hgT (GNode.node n c ps) hx (by simpa using h)
          rw [hgx, subnodes] at hy
          rcases List.mem_cons.mp hy with hy1 | hy1
          · rw [hy1]
            exact List.mem_cons_self _ _
          · obtain ⟨p, hp, hyp⟩ := mem_subnodesL.mp hy1
            exact List.mem_cons_of_mem _ (henv1.2 p (hps p hp) (hnames p hp) y hyp)
        · exact List.mem_cons_of_mem _ (henv1.2 g hgT h y hy)
      · exact fun a ha => List.mem_cons_of_mem _ (hvis1 ha)

/-- Restoring the descriptors emitted for a worklist of nodes succeeds,
preserving the invariant; afterwards every root's name is visited. -/
theorem serList_restore : ∀ (T : GNode) (xs : List GNode), wfGraph T →
    (∀ x ∈ xs, x ∈ subnodes T) →
    ∀ (vis : List String) (env : List (String × GNode)), envOK T vis env →
    ∃ env', restoreGraph (serList xs vis).1 env = some env' ∧
      envOK T (serList xs vis).2 env' ∧
      vis ⊆ (serList xs vis).2 ∧
      ∀ x ∈ xs, x.name ∈ (serList xs vis).2
  | T, [], _, _, vis, env, henv => by
    exact ⟨env, rfl, henv, fun a ha => ha, by simp⟩
  | T, p :: ps, hwf, hxs, vis, env, henv => by
    obtain ⟨env1, h1, henv1, hv1, hn1⟩ :=
      serNode_restore T p hwf (hxs p (List.mem_cons_self p ps)) vis env henv
    obtain ⟨env2, h2, henv2, hv2, hn2⟩ :=
      serList_restore T ps hwf (fun x hx => hxs x (List.mem_cons_of_mem p hx))
        (serNode p vis).2 env1 henv1
    have hser : serList (p :: ps) vis =
        ((serNode p vis).1 ++ (serList ps (serNode p vis).2).1,
         (serList ps (serNode p vis).2).2) := by
      rw [serList]
    rw [hser]
    refine ⟨env2, ?_, henv2, fun a ha => hv2 (hv1 ha), ?_⟩
    · rw [restoreGraph_append, h1]
      exact h2
    · intro x hx
      rcases List.mem_cons.mp hx with h | h
      · rw [h]
        exact hv2 hn1
      · exact hn2 x h

end

/-- Restoring a serialized well-formed graph succeeds and materializes
every reachable node, unchanged, under its own name. -/
theorem restore_serialize (g : GNode) (hwf : wfGraph g) :
    ∃ env, restoreGraph (serializeGraph g) [] = some env ∧
      ∀ y ∈ subnodes g, env.lookup y.name = some y := by
  have henv0 : envOK g [] [] :=
    ⟨fun nm hnm => absurd hnm (List.not_mem_nil nm),
     fun _ _ hg _ _ => absurd hg (List.not_mem_nil _)⟩
  obtain ⟨env, hrest, henv, _, hgname⟩ :=
    serNode_restore g g hwf (subnodes_self g) [] [] henv0
  refine ⟨env, hrest, ?_⟩
  intro y hy
  have hyname : y.name ∈ (serNode g []).2 := henv.2 g (subnodes_self g) hgname y hy
  obtain ⟨g', hg'T, hg'name, hg'look⟩ := henv.1 y.name hyname
  have : g' = y := hwf g' hg'T y hy hg'name
  rw [this] at hg'look
  exact hg'look

/-- Unfolding of one validity step. -/
theorem validSeq_cons {d : LayerDescriptor} {ds : List LayerDescriptor}
    {defined : List String} :
    validSeq (d :: ds) defined = true ↔
      (∀ p ∈ d.parents, p ∈ defined) ∧ d.name ∉ defined ∧
      validSeq ds (d.name :: defined) = true := by
  simp [validSeq, List.all_eq_true, and_assoc]

/-- A successful lookup comes from a binding of the environment. -/
theorem lookup_mem {env : List (String × GNode)} {nm : String} {g : GNode}
    (h : env.lookup nm = some g) : (nm, g) ∈ env := by
  induction env with
  | nil => simp [List.lookup] at h
  | cons b env ih =>
    rw [List.lookup] at h
    cases hb : (nm == b.1) with
    | true =>
      rw [hb] at h
      injection h with h
      have hnm : nm = b.1 := eq_of_beq hb
      exact List.mem_cons.mpr (Or.inl (by rw [hnm, ← h]))
    | false =>
      rw [hb] at h
      exact List.mem_cons_of_mem b (ih h)

/-- A name present among the keys has a successful lookup. -/
theorem lookup_some_of_mem_keys {env : List (String × GNode)} {nm : String}
    (h : nm ∈ env.map Prod.fst) : ∃ g, env.lookup nm = some g := by
  induction env with
  | nil => simp at h
  | cons b env ih =>
    rw [List.map_cons] at h
    by_cases hb : nm = b.1
    · exact ⟨b.2, by simp [List.lookup, hb]⟩
    · have hne : (nm == b.1) = false := by
        simp only [beq_eq_false_iff_ne, ne_eq]
        exact hb
      rcases List.mem_cons.mp h with h1 | h1
      · exact absurd h1 hb
      · obtain ⟨g, hg⟩ := ih h1
        exact ⟨g, by simp [List.lookup, hne, hg]⟩

/-- A successful lookup's key is among the keys. -/
theorem lookup_mem_keys {env : List (String × GNode)} {nm : String} {g : GNode}
    (h : env.lookup nm = some g) : nm ∈ env.map Prod.fst :=
  List.mem_map.mpr ⟨(nm, g), lookup_mem h, rfl⟩

/-- Lookup skips a prefix that does not contain the key. -/
theorem lookup_append_of_not_mem_keys {l1 l2 : List (String × GNode)} {nm : String}
    (h : nm ∉ l1.map Prod.fst) : (l1 ++ l2).lookup nm = l2.lookup nm := by
  induction l1 with
  | nil => rfl
  | cons b l1 ih =>
    rw [List.map_cons] at h
    have hb : nm ≠ b.1 := fun hc => h (by rw [hc]; exact List.mem_cons_self _ _)
    have hne : (nm == b.1) = false := by
      simp only [beq_eq_false_iff_ne, ne_eq]
      exact hb
    rw [List.cons_append, List.lookup, hne]
    exact ih fun hc => h (List.mem_cons_of_mem _ hc)

/-- In an environment with duplicate-free keys, a key determines its
node. -/
theorem nodup_keys_value_eq {env : List (String × GNode)}
    (hnd : (env.map Prod.fst).Nodup) {nm : String} {g h : GNode}
    (hg : (nm, g) ∈ env) (hh : (nm, h) ∈ env) : g = h := by
  induction env with
  | nil => simp at hg
  | cons b env ih =>
    rw [List.map_cons, List.nodup_cons] at hnd
    rcases List.mem_cons.mp hg with h1 | h1 <;> rcases List.mem_cons.mp hh with h2 | h2
    · exact (Prod.ext_iff.mp (h1.trans h2.symm)).2
    · exact absurd (List.mem_map.mpr ⟨(nm, h), h2, by rw [← h1]⟩) hnd.1
    · exact absurd (List.mem_map.mpr ⟨(nm, g), h1, by rw [← h2]⟩) hnd.1
    · exact ih hnd.2 h1 h2

/-- In a good environment, a looked-up node carries the looked-up name. -/
theorem goodEnv_lookup_name {env : List (String × GNode)} (henv : goodEnv env)
    {nm : String} {g : GNode} (h : env.lookup nm = some g) : g.name = nm :=
  (henv (nm, g) (lookup_mem h)).1

/-- In a good environment, a fully resolvable parent-name list yields nodes
named by it, each materialized under its own name. -/
theorem lookupNodes_total {env : List (String × GNode)} (henv : goodEnv env) :
    ∀ {ns : List String}, (∀ p ∈ ns, ∃ g, env.lookup p = some g) →
    ∃ qs, lookupNodes env ns = some qs ∧ qs.map GNode.name = ns ∧
      ∀ q ∈ qs, env.lookup q.name = some q := by
  intro ns
  induction ns with
  | nil => exact fun _ => ⟨[], rfl, rfl, by simp⟩
  | cons p ns ih =>
    intro h
    obtain ⟨g, hg⟩ := h p (List.mem_cons_self p ns)
    obtain ⟨qs, hqs, hnames, hall⟩ := ih fun q hq => h q (List.mem_cons_of_mem p hq)
    refine ⟨g :: qs, ?_, ?_, ?_⟩
    · rw [lookupNodes, hg, hqs]
    · rw [List.map_cons, hnames, goodEnv_lookup_name henv hg]
    · intro q hq
      rcases List.mem_cons.mp hq with h1 | h1
      · rw [h1, goodEnv_lookup_name henv hg]
        exact hg
      · exact hall q h1

/-- Splitting a validity check across an append. -/
theorem validSeq_append : ∀ (as bs : List LayerDescriptor) (defined : List String),
    validSeq (as ++ bs) defined = true ↔
      validSeq as defined = true ∧
      validSeq bs (as.reverse.map LayerDescriptor.name ++ defined) = true := by
  intro as
  induction as with
  | nil =>
    intro bs defined
    simp [validSeq]
  | cons a as ih =>
    intro bs defined
    rw [List.cons_append]
    simp only [validSeq, Bool.and_eq_true]
    rw [ih bs (a.name :: defined)]
    constructor
    · rintro ⟨h1, h2, h3⟩
      refine ⟨⟨h1, h2⟩, ?_⟩
      simpa [List.map_append, List.append_assoc] using h3
    · rintro ⟨⟨h1, h2⟩, h3⟩
      refine ⟨h1, h2, ?_⟩
      simpa [List.map_append, List.append_assoc] using h3

/-- In a valid sequence no descriptor reuses an already defined name. -/
theorem validSeq_names_not_mem : ∀ (ds : List LayerDescriptor) (defined : List String),
    validSeq ds defined = true → ∀ d ∈ ds, d.name ∉ defined := by
  intro ds
  induction ds with
  | nil => simp
  | cons d ds ih =>
    intro defined h e he
    obtain ⟨_, hfresh, hv⟩ := validSeq_cons.mp h
    rcases List.mem_cons.mp he with h1 | h1
    · rw [h1]
      exact hfresh
    · exact fun hc => ih (d.name :: defined) hv e h1 (List.mem_cons_of_mem _ hc)

/-- A valid sequence extends duplicate-free defined names to a
duplicate-free key list. -/
theorem validSeq_nodup : ∀ (ds : List LayerDescriptor) (defined : List String),
    validSeq ds defined = true → defined.Nodup →
    (ds.reverse.map LayerDescriptor.name ++ defined).Nodup := by
  intro ds
  induction ds with
  | nil =>
    intro defined _ hnd
    simpa using hnd
  | cons d ds ih =>
    intro defined h hnd
    obtain ⟨_, hfresh, hv⟩ := validSeq_cons.mp h
    have := ih (d.name :: defined) hv (List.nodup_cons.mpr ⟨hfresh, hnd⟩)
    simpa [List.map_append, List.append_assoc] using this

/-- Replaying a valid descriptor sequence always succeeds: the environment
grows by one binding per descriptor (newest first), stays good, every new
node's descriptor is one of the replayed descriptors, and every replayed
descriptor is materialized, under its name, as a node whose descriptor is
itself. -/
theorem restore_validSeq : ∀ (ds : List LayerDescriptor) (env : List (String × GNode)),
    validSeq ds (env.map Prod.fst) = true → goodEnv env →
    ∃ newE, restoreGraph ds env = some (newE ++ env) ∧
      newE.map Prod.fst = ds.reverse.map LayerDescriptor.name ∧
      goodEnv (newE ++ env) ∧
      (∀ b ∈ newE, descriptorOf b.2 ∈ ds) ∧
      (∀ d ∈ ds, ∃ g, (newE ++ env).lookup d.name = some g ∧ descriptorOf g = d) := by
  intro ds
  induction ds with
  | nil =>
    intro env _ henv
    exact ⟨[], rfl, rfl, henv, by simp, by simp⟩
  | cons d ds ih =>
    intro env hv henv
    obtain ⟨hpar, hfresh, hv⟩ := validSeq_cons.mp hv
    obtain ⟨qs, hqs, hqnames, hqall⟩ :=
      lookupNodes_total henv fun p hp => lookup_some_of_mem_keys (hpar p hp)
    have henv1 : goodEnv ((d.name, GNode.node d.name d.cfg qs) :: env) := by
      intro b hb
      rcases List.mem_cons.mp hb with h1 | h1
      · rw [h1]
        refine ⟨rfl, ?_⟩
        intro q hq
        have hqlook := hqall q hq
        have hqne : (q.name == d.name) = false := by
          simp only [beq_eq_false_iff_ne, ne_eq]
          exact fun hc => hfresh (hc ▸ lookup_mem_keys hqlook)
        rw [List.lookup, hqne]
        exact hqlook
      · obtain ⟨hbn, hbq⟩ := henv b h1
        refine ⟨hbn, ?_⟩
        intro q hq
        have hqlook := hbq q hq
        have hqne : (q.name == d.name) = false := by
          simp only [beq_eq_false_iff_ne, ne_eq]
          exact fun hc => hfresh (hc ▸ lookup_mem_keys hqlook)
        rw [List.lookup, hqne]
        exact hqlook
    obtain ⟨newE', hrest, hkeys, hgood, hofnode, hmater⟩ :=
      ih ((d.name, GNode.node d.name d.cfg qs) :: env) hv henv1
    have hdescx : descriptorOf (GNode.node d.name d.cfg qs) = d := by
      simp only [descriptorOf, GNode.name, GNode.cfg, GNode.parents, hqnames]
    have hstep : restoreGraph (d :: ds) env =
        restoreGraph ds ((d.name, GNode.node d.name d.cfg qs) :: env) := by
      simp only [restoreGraph, hqs]
    refine ⟨newE' ++ [(d.name, GNode.node d.name d.cfg qs)], ?_, ?_, ?_, ?_, ?_⟩
    · rw [hstep, hrest, List.append_assoc]
      rfl
    · rw [List.map_append, hkeys]
      simp
    · rw [List.append_assoc]
      exact hgood
    · intro b hb
      rcases List.mem_append.mp hb with h1 | h1
      · exact List.mem_cons_of_mem d (hofnode b h1)
      · rw [List.mem_singleton.mp h1]
        rw [show ((d.name, GNode.node d.name d.cfg qs) : String × GNode).2 =
          GNode.node d.name d.cfg qs from rfl, hdescx]
        exact List.mem_cons_self d ds
    · intro e he
      rcases List.mem_cons.mp he with h1 | h1
      · subst h1
        have hnotin : e.name ∉ newE'.map Prod.fst := by
          rw [hkeys]
          intro hc
          simp only [List.map_reverse, List.mem_reverse, List.mem_map] at hc
          obtain ⟨d', hd', hd'name⟩ := hc
          have := validSeq_names_not_mem ds (e.name :: env.map Prod.fst) hv d' hd'
          rw [hd'name] at this
          exact this (List.mem_cons_self _ _)
        rw [List.append_assoc, lookup_append_of_not_mem_keys hnotin]
        refine ⟨GNode.node e.name e.cfg qs, ?_, hdescx⟩
        simp [List.lookup]
      · obtain ⟨g, hg, hgd⟩ := hmater e h1
        refine ⟨g, ?_, hgd⟩
        rw [List.append_assoc]
        exact hg

mutual

/-- Subnodes are no larger than the node containing them. -/
theorem subnodes_sizeOf : ∀ (x y : GNode), y ∈ subnodes x → sizeOf y ≤ sizeOf x
  | .node n c ps, y, hy => by
    rw [subnodes] at hy
    rcases List.mem_cons.mp hy with h | h
    · rw [h]
    · have := subnodesL_sizeOf ps y h
      have hps : sizeOf ps < sizeOf (GNode.node n c ps) := by
        simp only [GNode.node.sizeOf_spec]
        omega
      omega

/-- Subnodes of a list's members are no larger than the list. -/
theorem subnodesL_sizeOf : ∀ (l : List GNode) (y : GNode), y ∈ subnodesL l → sizeOf y ≤ sizeOf l
  | p :: ps, y, hy => by
    rw [subnodesL] at hy
    rcases List.mem_append.mp hy with h | h
    · have := subnodes_sizeOf p y h
      have hp : sizeOf p < sizeOf (p :: ps) := by
        simp only [List.cons.sizeOf_spec]
        omega
      omega
    · have := subnodesL_sizeOf ps y h
      have hps : sizeOf ps < sizeOf (p :: ps) := by
        simp only [List.cons.sizeOf_spec]
        omega
      omega
  | [], y, hy => by
    rw [subnodesL] at hy
    exact absurd hy (List.not_mem_nil y)

end

mutual

/-- The serializer's visited list after a node is the emitted descriptor
names (newest first) on top of the initial visited list. -/
theorem serNode_snd_eq : ∀ (x : GNode) (vis : List String),
    (serNode x vis).2 = (serNode x vis).1.reverse.map LayerDescriptor.name ++ vis
  | .node n c ps, vis => by
    by_cases hn : n ∈ vis
    · rw [serNode, if_pos hn]
      simp
    · rw [serNode, if_neg hn]
      show n :: (serList ps vis).2 = _
      rw [serList_snd_eq ps vis]
      simp

/-- The serializer's visited list after a worklist is the emitted
descriptor names (newest first) on top of the initial visited list. -/
theorem serList_snd_eq : ∀ (xs : List GNode) (vis : List String),
    (serList xs vis).2 = (serList xs vis).1.reverse.map LayerDescriptor.name ++ vis
  | [], vis => by
    rw [serList]
    simp
  | x :: xs, vis => by
    rw [serList]
    show (serList xs (serNode x vis).2).2 = _
    rw [serList_snd_eq xs (serNode x vis).2, serNode_snd_eq x vis]
    simp

end

/-- The initial visited list survives serialization of a node. -/
theorem serNode_snd_mono {x : GNode} {vis : List String} :
    vis ⊆ (serNode x vis).2 := by
  rw [serNode_snd_eq]
  exact fun a ha => List.mem_append_right _ ha

/-- The initial visited list survives serialization of a worklist. -/
theorem serList_snd_mono {xs : List GNode} {vis : List String} :
    vis ⊆ (serList xs vis).2 := by
  rw [serList_snd_eq]
  exact fun a ha => List.mem_append_right _ ha

/-- After serializing a node its name is visited. -/
theorem serNode_name_mem (x : GNode) (vis : List String) : x.name ∈ (serNode x vis).2 := by
  cases x with
  | node n c ps =>
    by_cases hn : n ∈ vis
    · rw [serNode, if_pos hn]
      exact hn
    · rw [serNode, if_neg hn]
      exact List.mem_cons_self _ _

/-- After serializing a worklist every root's name is visited. -/
theorem serList_name_mem : ∀ (xs : List GNode) (vis : List String),
    ∀ x ∈ xs, x.name ∈ (serList xs vis).2 := by
  intro xs
  induction xs with
  | nil => simp
  | cons p ps ih =>
    intro vis x hx
    rw [serList]
    show x.name ∈ (serList ps (serNode p vis).2).2
    rcases List.mem_cons.mp hx with h | h
    · rw [h]
      exact serList_snd_mono (serNode_name_mem p vis)
    · exact ih (serNode p vis).2 x h

mutual

/-- Names added to the visited list during serialization of a node are
names of its subnodes. -/
theorem serNode_snd_sub : ∀ (x : GNode) (vis : List String) (nm : String),
    nm ∈ (serNode x vis).2 → nm ∈ (subnodes x).map GNode.name ∨ nm ∈ vis
  | .node n c ps, vis, nm, hnm => by
    by_cases hn : n ∈ vis
    · rw [serNode, if_pos hn] at hnm
      exact Or.inr hnm
    · rw [serNode, if_neg hn] at hnm
      replace hnm : nm ∈ n :: (serList ps vis).2 := hnm
      rcases List.mem_cons.mp hnm with h | h
      · refine Or.inl (List.mem_map.mpr ⟨GNode.node n c ps, subnodes_self _, ?_⟩)
        rw [h]
        rfl
      · rcases serList_snd_sub ps vis nm h with h1 | h1
        · obtain ⟨y, hy, hyn⟩ := List.mem_map.mp h1
          refine Or.inl (List.mem_map.mpr ⟨y, ?_, hyn⟩)
          rw [subnodes]
          exact List.mem_cons_of_mem _ hy
        · exact Or.inr h1

/-- Names added to the visited list during serialization of a worklist are
names of the worklist's subnodes. -/
theorem serList_snd_sub : ∀ (xs : List GNode) (vis : List String) (nm : String),
    nm ∈ (serList xs vis).2 → nm ∈ (subnodesL xs).map GNode.name ∨ nm ∈ vis
  | [], vis, nm, hnm => by
    rw [serList] at hnm
    exact Or.inr hnm
  | x :: xs, vis, nm, hnm => by
    rw [serList] at hnm
    replace hnm : nm ∈ (serList xs (serNode x vis).2).2 := hnm
    rcases serList_snd_sub xs (serNode x vis).2 nm hnm with h1 | h1
    · obtain ⟨y, hy, hyn⟩ := List.mem_map.mp h1
      refine Or.inl (List.mem_map.mpr ⟨y, ?_, hyn⟩)
      rw [subnodesL]
      exact List.mem_append_right _ hy
    · rcases serNode_snd_sub x vis nm h1 with h2 | h2
      · obtain ⟨y, hy, hyn⟩ := List.mem_map.mp h2
        refine Or.inl (List.mem_map.mpr ⟨y, ?_, hyn⟩)
        rw [subnodesL]
        exact List.mem_append_left _ hy
      · exact Or.inr h2

end

/-- Under unique names, serializing a node's parents cannot visit the
node's own name: a subnode carrying it would equal the node and be a strict
subterm of itself. -/
theorem serList_fresh (U : List GNode)
    (hU : ∀ a ∈ subnodesL U, ∀ b ∈ subnodesL U, a.name = b.name → a = b)
    {n c : String} {ps : List GNode} (hx : GNode.node n c ps ∈ subnodesL U)
    {vis : List String} (hn : n ∉ vis) : n ∉ (serList ps vis).2 := by
  intro hmem
  rcases serList_snd_sub ps vis n hmem with h1 | h1
  · obtain ⟨y, hy, hyn⟩ := List.mem_map.mp h1
    have hysub : y ∈ subnodes (GNode.node n c ps) := by
      rw [subnodes]
      exact List.mem_cons_of_mem _ hy
    have hyU : y ∈ subnodesL U := subnodesL_trans U (GNode.node n c ps) y hx hysub
    have hyx : y = GNode.node n c ps := hU y hyU (GNode.node n c ps) hx hyn
    rw [hyx] at hy
    have hle := subnodesL_sizeOf ps (GNode.node n c ps) hy
    have : sizeOf ps < sizeOf (GNode.node n c ps) := by
      simp only [GNode.node.sizeOf_spec]
      omega
    omega
  · exact hn h1

mutual

/-- Under unique names the visited list stays duplicate-free while
serializing a node. -/
theorem serNode_snd_nodup : ∀ (U : List GNode),
    (∀ a ∈ subnodesL U, ∀ b ∈ subnodesL U, a.name = b.name → a = b) →
    ∀ (x : GNode), x ∈ subnodesL U → ∀ (vis : List String), vis.Nodup →
    (serNode x vis).2.Nodup
  | U, hU, .node n c ps, hx, vis, hnd => by
    by_cases hn : n ∈ vis
    · rw [serNode, if_pos hn]
      exact hnd
    · rw [serNode, if_neg hn]
      have hps : ∀ p ∈ ps, p ∈ subnodesL U := fun p hp =>
        subnodesL_trans U (GNode.node n c ps) p hx (parents_mem_subnodes n c hp)
      have htail := serList_snd_nodup U hU ps hps vis hnd
      exact List.nodup_cons.mpr ⟨serList_fresh U hU hx hn, htail⟩

/-- Under unique names the visited list stays duplicate-free while
serializing a worklist. -/
theorem serList_snd_nodup : ∀ (U : List GNode),
    (∀ a ∈ subnodesL U, ∀ b ∈ subnodesL U, a.name = b.name → a = b) →
    ∀ (xs : List GNode), (∀ x ∈ xs, x ∈ subnodesL U) → ∀ (vis : List String), vis.Nodup →
    (serList xs vis).2.Nodup
  | _, _, [], _, vis, hnd => by
    rw [serList]
    exact hnd
  | U, hU, x :: xs, hxs, vis, hnd => by
    rw [serList]
    show (serList xs (serNode x vis).2).2.Nodup
    exact serList_snd_nodup U hU xs (fun y hy => hxs y (List.mem_cons_of_mem x hy))
      (serNode x vis).2 (serNode_snd_nodup U hU x (hxs x (List.mem_cons_self x xs)) vis hnd)

end

mutual

/-- Every descriptor emitted for a node is the descriptor of one of its
subnodes. -/
theorem serNode_emits : ∀ (x : GNode) (vis : List String),
    ∀ d ∈ (serNode x vis).1, ∃ g ∈ subnodes x, d = descriptorOf g
  | .node n c ps, vis, d, hd => by
    by_cases hn : n ∈ vis
    · rw [serNode, if_pos hn] at hd
      exact absurd hd (List.not_mem_nil d)
    · rw [serNode, if_neg hn] at hd
      replace hd : d ∈ (serList ps vis).1 ++ [⟨n, c, ps.map GNode.name⟩] := hd
      rcases List.mem_append.mp hd with h | h
      · obtain ⟨g, hg, hdg⟩ := serList_emits ps vis d h
        refine ⟨g, ?_, hdg⟩
        rw [subnodes]
        exact List.mem_cons_of_mem _ hg
      · refine ⟨GNode.node n c ps, subnodes_self _, ?_⟩
        rw [List.mem_singleton.mp h]
        rfl

/-- Every descriptor emitted for a worklist is the descriptor of one of its
subnodes. -/
theorem serList_emits : ∀ (xs : List GNode) (vis : List String),
    ∀ d ∈ (serList xs vis).1, ∃ g ∈ subnodesL xs, d = descriptorOf g
  | [], vis, d, hd => by
    rw [serList] at hd
    exact absurd hd (List.not_mem_nil d)
  | x :: xs, vis, d, hd => by
    rw [serList] at hd
    replace hd : d ∈ (serNode x vis).1 ++ (serList xs (serNode x vis).2).1 := hd
    rcases List.mem_append.mp hd with h | h
    · obtain ⟨g, hg, hdg⟩ := serNode_emits x vis d h
      refine ⟨g, ?_, hdg⟩
      rw [subnodesL]
      exact List.mem_append_left _ hg
    · obtain ⟨g, hg, hdg⟩ := serList_emits xs (serNode x vis).2 d h
      refine ⟨g, ?_, hdg⟩
      rw [subnodesL]
      exact List.mem_append_right _ hg

end

mutual

/-- Under unique names the serializer's output for a node is itself a valid
descriptor sequence over the initially visited names: every emitted
descriptor's parents are emitted (or already visited) before it and no
name is emitted twice — the dependency order is preserved. -/
theorem serNode_validSeq : ∀ (U : List GNode),
    (∀ a ∈ subnodesL U, ∀ b ∈ subnodesL U, a.name = b.name → a = b) →
    ∀ (x : GNode), x ∈ subnodesL U → ∀ (vis : List String), vis.Nodup →
    validSeq (serNode x vis).1 vis = true
  | U, hU, .node n c ps, hx, vis, hnd => by
    by_cases hn : n ∈ vis
    · rw [serNode, if_pos hn]
      rfl
    · have hser : serNode (GNode.node n c ps) vis =
          ((serList ps vis).1 ++ [⟨n, c, ps.map GNode.name⟩], n :: (serList ps vis).2) := by
        rw [serNode, if_neg hn]
      rw [hser]
      have hps : ∀ p ∈ ps, p ∈ subnodesL U := fun p hp =>
        subnodesL_trans U (GNode.node n c ps) p hx (parents_mem_subnodes n c hp)
      rw [validSeq_append]
      refine ⟨serList_validSeq U hU ps hps vis hnd, ?_⟩
      rw [validSeq_cons]
      rw [← serList_snd_eq ps vis]
      refine ⟨?_, serList_fresh U hU hx hn, rfl⟩
      intro p hp
      obtain ⟨q, hq, hqn⟩ := List.mem_map.mp hp
      rw [← hqn]
      exact serList_name_mem ps vis q hq

/-- Under unique names the serializer's output for a worklist is a valid
descriptor sequence over the initially visited names. -/
theorem serList_validSeq : ∀ (U : List GNode),
    (∀ a ∈ subnodesL U, ∀ b ∈ subnodesL U, a.name = b.name → a = b) →
    ∀ (xs : List GNode), (∀ x ∈ xs, x ∈ subnodesL U) → ∀ (vis : List String), vis.Nodup →
    validSeq (serList xs vis).1 vis = true
  | _, _, [], _, vis, _ => by
    rw [serList]
    rfl
  | U, hU, x :: xs, hxs, vis, hnd => by
    have hser : serList (x :: xs) vis =
        ((serNode x vis).1 ++ (serList xs (serNode x vis).2).1,
         (serList xs (serNode x vis).2).2) := by
      rw [serList]
    rw [hser]
    rw [validSeq_append]
    refine ⟨serNode_validSeq U hU x (hxs x (List.mem_cons_self x xs)) vis hnd, ?_⟩
    rw [← serNode_snd_eq x vis]
    exact serList_validSeq U hU xs (fun y hy => hxs y (List.mem_cons_of_mem x hy))
      (serNode x vis).2 (serNode_snd_nodup U hU x (hxs x (List.mem_cons_self x xs)) vis hnd)

end

mutual

/-- A good environment's node values are closed under subnodes. -/
theorem values_closed : ∀ (env : List (String × GNode)), goodEnv env →
    ∀ (g : GNode), g ∈ env.map Prod.snd → ∀ y ∈ subnodes g, y ∈ env.map Prod.snd
  | env, henv, .node n c ps, hg, y, hy => by
    rw [subnodes] at hy
    rcases List.mem_cons.mp hy with h | h
    · rw [h]
      exact hg
    · have hps : ∀ p ∈ ps, p ∈ env.map Prod.snd := by
        intro p hp
        obtain ⟨b, hb, hbg⟩ := List.mem_map.mp hg
        have hpar := (henv b hb).2
        rw [hbg] at hpar
        have hpl := hpar p hp
        exact List.mem_map.mpr ⟨(p.name, p), lookup_mem hpl, rfl⟩
      exact values_closedL env henv ps hps y h

/-- Subnodes of values of a good environment are values of it. -/
theorem values_closedL : ∀ (env : List (String × GNode)), goodEnv env →
    ∀ (ps : List GNode), (∀ p ∈ ps, p ∈ env.map Prod.snd) →
    ∀ y ∈ subnodesL ps, y ∈ env.map Prod.snd
  | _, _, [], _, y, hy => by
    rw [subnodesL] at hy
    exact absurd hy (List.not_mem_nil y)
  | env, henv, p :: ps, hps, y, hy => by
    rw [subnodesL] at hy
    rcases List.mem_append.mp hy with h | h
    · exact values_closed env henv p (hps p (List.mem_cons_self p ps)) y h
    · exact values_closedL env henv ps (fun q hq => hps q (List.mem_cons_of_mem p hq)) y h

end

/-- Round trip on arbitrary valid descriptor sequences: restoring any valid
sequence succeeds, and re-serializing the restored graph (with the full set
of materialized nodes as the output set, which the memoized traversal
visits once each) emits a permutation of the original sequence — the same
set of descriptors — that is itself a valid topological order, so every
dependency between descriptors is again respected. -/
theorem serialize_restore_valid (D : List LayerDescriptor) (hD : validSeq D [] = true) :
    ∃ env, restoreGraph D [] = some env ∧
      (serList (restoredNodes env) []).1.Perm D ∧
      validSeq (serList (restoredNodes env) []).1 [] = true := by
  have hgood0 : goodEnv ([] : List (String × GNode)) :=
    fun b hb => absurd hb (List.not_mem_nil b)
  obtain ⟨newE, hrest, hkeys, hgood, hofnode, hmater⟩ := restore_validSeq D [] hD hgood0
  rw [List.append_nil] at hrest hgood hmater
  have hkeysNodup : (newE.map Prod.fst).Nodup := by
    rw [hkeys]
    simpa using validSeq_nodup D [] hD List.nodup_nil
  have hSnames : (restoredNodes newE).map GNode.name = newE.map Prod.fst := by
    rw [restoredNodes, List.map_map]
    refine List.map_congr_left ?_
    intro b hb
    exact (hgood b hb).1
  have hsub1 : ∀ y ∈ subnodesL (restoredNodes newE), y ∈ restoredNodes newE :=
    values_closedL newE hgood (restoredNodes newE) (fun p hp => hp)
  have hvalinj : ∀ g ∈ restoredNodes newE, ∀ h ∈ restoredNodes newE,
      g.name = h.name → g = h := by
    intro g hg h hh hgh
    obtain ⟨bg, hbg, hbg2⟩ := List.mem_map.mp hg
    obtain ⟨bh, hbh, hbh2⟩ := List.mem_map.mp hh
    have hg1 : g.name = bg.1 := by rw [← hbg2]; exact (hgood bg hbg).1
    have hh1 : h.name = bh.1 := by rw [← hbh2]; exact (hgood bh hbh).1
    have hmg : (g.name, g) ∈ newE := by
      rw [hg1, ← hbg2]
      exact hbg
    have hmh : (g.name, h) ∈ newE := by
      rw [hgh, hh1, ← hbh2]
      exact hbh
    exact nodup_keys_value_eq hkeysNodup hmg hmh
  have hU : ∀ a ∈ subnodesL (restoredNodes newE), ∀ b ∈ subnodesL (restoredNodes newE),
      a.name = b.name → a = b :=
    fun a ha b hb hab => hvalinj a (hsub1 a ha) b (hsub1 b hb) hab
  have hSin : ∀ x ∈ restoredNodes newE, x ∈ subnodesL (restoredNodes newE) :=
    fun x hx => mem_subnodesL.mpr ⟨x, hx, subnodes_self x⟩
  have hvalid := serList_validSeq (restoredNodes newE) hU (restoredNodes newE) hSin
    [] List.nodup_nil
  have hvisNodup := serList_snd_nodup (restoredNodes newE) hU (restoredNodes newE) hSin
    [] List.nodup_nil
  have hvisEq := serList_snd_eq (restoredNodes newE) []
  rw [List.append_nil] at hvisEq
  have hOutNamesNodup : ((serList (restoredNodes newE) []).1.map LayerDescriptor.name).Nodup := by
    have h1 := hvisEq ▸ hvisNodup
    rw [List.map_reverse] at h1
    exact List.nodup_reverse.mp h1
  have hOutNodup : (serList (restoredNodes newE) []).1.Nodup :=
    List.Nodup.of_map _ hOutNamesNodup
  have hDNamesNodup : (D.map LayerDescriptor.name).Nodup := by
    have h1 := validSeq_nodup D [] hD List.nodup_nil
    rw [List.append_nil, List.map_reverse] at h1
    exact List.nodup_reverse.mp h1
  have hDNodup : D.Nodup := List.Nodup.of_map _ hDNamesNodup
  have hOutSubD : ∀ d ∈ (serList (restoredNodes newE) []).1, d ∈ D := by
    intro d hd
    obtain ⟨g, hgsub, hdg⟩ := serList_emits (restoredNodes newE) [] d hd
    obtain ⟨b, hb, hb2⟩ := List.mem_map.mp (hsub1 g hgsub)
    rw [hdg, ← hb2]
    exact hofnode b hb
  have hDSubOut : ∀ d ∈ D, d ∈ (serList (restoredNodes newE) []).1 := by
    intro d hd
    obtain ⟨g, hglook, hgdesc⟩ := hmater d hd
    have hgS : g ∈ restoredNodes newE :=
      List.mem_map.mpr ⟨(d.name, g), lookup_mem hglook, rfl⟩
    have hgname : g.name = d.name := goodEnv_lookup_name hgood hglook
    have hnm : d.name ∈ (serList (restoredNodes newE) []).2 := by
      rw [← hgname]
      exact serList_name_mem (restoredNodes newE) [] g hgS
    rw [hvisEq, List.map_reverse, List.mem_reverse, List.mem_map] at hnm
    obtain ⟨d', hd', hd'name⟩ := hnm
    have hd'D : d' ∈ D := hOutSubD d' hd'
    have : d' = d := List.inj_on_of_nodup_map hDNamesNodup hd'D hd hd'name
    rw [← this]
    exact hd'
  refine ⟨newE, hrest, ?_, hvalid⟩
  exact (List.perm_ext_iff_of_nodup hOutNodup hDNodup).mpr
    fun a => ⟨hOutSubD a, hDSubOut a⟩

instance wfGraphDecidable (g : GNode) : Decidable (wfGraph g) := by
  unfold wfGraph
  infer_instance

/-- C1: round trip of the architecture serialization.  Restoring a
serialized well-formed graph reproduces the graph: the output node (and
every reachable node) is rebuilt identical in topology and configuration
under its own name.  For every valid descriptor sequence `D` (each
predecessor name defined before use, names unique), restoration succeeds
and serializing the restored graph emits a permutation of `D` — the same
set of descriptors — that is itself a valid topological order, so the
dependency order between descriptors is preserved (independent descriptors
may be cosmetically reordered); on serializer-produced sequences the round
trip is exact.  Consequently `from_json` applied to a saved architecture
rebuilds the model itself, so its input-tensor name, output-tensor name
and model name equal those recorded by `_get_model_info` at save time. -/
theorem serialization_round_trip :
    (∀ g : GNode, wfGraph g →
      ∃ env, restoreGraph (serializeGraph g) [] = some env ∧
        env.lookup g.name = some g ∧
        ∀ y ∈ subnodes g, env.lookup y.name = some y) ∧
    (∀ D : List LayerDescriptor, validSeq D [] = true →
      ∃ env, restoreGraph D [] = some env ∧
        (serList (restoredNodes env) []).1.Perm D ∧
        validSeq (serList (restoredNodes env) []).1 [] = true) ∧
    (∀ (g : GNode) (env : List (String × GNode)), wfGraph g →
      restoreGraph (serializeGraph g) [] = some env →
      ∃ out, env.lookup g.name = some out ∧ serializeGraph out = serializeGraph g) ∧
    (∀ m : RegressorModel, wfGraph m.output → m.input ∈ subnodes m.output →
      fromJson (saveArchitecture m) = some m ∧
      ∀ m', fromJson (saveArchitecture m) = some m' → getModelInfo m' = getModelInfo m) := by
  refine ⟨?_, fun D hD => serialize_restore_valid D hD, ?_, ?_⟩
  · intro g hwf
    obtain ⟨env, hrest, hall⟩ := restore_serialize g hwf
    exact ⟨env, hrest, hall g (subnodes_self g), hall⟩
  · intro g env hwf hrest
    obtain ⟨env', hrest', hall⟩ := restore_serialize g hwf
    rw [hrest'] at hrest
    injection hrest with h
    rw [← h]
    exact ⟨g, hall g (subnodes_self g), rfl⟩
  · intro m hwf hin
    obtain ⟨mIn, mOut, mNm⟩ := m
    obtain ⟨env, hrest, hall⟩ := restore_serialize mOut hwf
    have hout : env.lookup mOut.name = some mOut := hall mOut (subnodes_self _)
    have hinl : env.lookup mIn.name = some mIn := hall mIn hin
    have hl1 : List.lookup Regressor.OUTPUT
        (getModelInfo ⟨mIn, mOut, mNm⟩) = some mOut.name := rfl
    have hl2 : List.lookup Regressor.INPUT
        (getModelInfo ⟨mIn, mOut, mNm⟩) = some mIn.name := rfl
    have hl3 : List.lookup Regressor.NAME
        (getModelInfo ⟨mIn, mOut, mNm⟩) = some mNm := rfl
    have hfj : fromJson (saveArchitecture ⟨mIn, mOut, mNm⟩) = some ⟨mIn, mOut, mNm⟩ := by
      simp only [fromJson, saveArchitecture, hl1, hl2, hl3, hrest, hout, hinl]
    refine ⟨hfj, ?_⟩
    intro m' hm'
    rw [hfj] at hm'
    injection hm' with h
    rw [h]

/-- Witness for `serialization_round_trip` on a three-node chain
Input -> Conv -> Activation and on the matching valid descriptor
sequence. -/
theorem serialization_round_trip_witness :
    wfGraph (GNode.node "act" "Activation"
      [GNode.node "conv" "Conv" [GNode.node "in" "Input" []]]) ∧
    GNode.node "in" "Input" [] ∈ subnodes (GNode.node "act" "Activation"
      [GNode.node "conv" "Conv" [GNode.node "in" "Input" []]]) ∧
    validSeq [⟨"in", "Input", []⟩, ⟨"conv", "Conv", ["in"]⟩,
      ⟨"act", "Activation", ["conv"]⟩] [] = true ∧
    (∃ env, restoreGraph [⟨"in", "Input", []⟩, ⟨"conv", "Conv", ["in"]⟩,
        ⟨"act", "Activation", ["conv"]⟩] [] = some env ∧
      (serList (restoredNodes env) []).1.Perm
        [⟨"in", "Input", []⟩, ⟨"conv", "Conv", ["in"]⟩, ⟨"act", "Activation", ["conv"]⟩] ∧
      validSeq (serList (restoredNodes env) []).1 [] = true) ∧
    fromJson (saveArchitecture
      ⟨GNode.node "in" "Input" [],
       GNode.node "act" "Activation" [GNode.node "conv" "Conv" [GNode.node "in" "Input" []]],
       "net"⟩) =
      some ⟨GNode.node "in" "Input" [],
        GNode.node "act" "Activation" [GNode.node "conv" "Conv" [GNode.node "in" "Input" []]],
        "net"⟩ :=
  ⟨by decide, by decide, by decide,
   serialization_round_trip.2.1
     [⟨"in", "Input", []⟩, ⟨"conv", "Conv", ["in"]⟩, ⟨"act", "Activation", ["conv"]⟩]
     (by decide),
   (serialization_round_trip.2.2.2
     ⟨GNode.node "in" "Input" [],
      GNode.node "act" "Activation" [GNode.node "conv" "Conv" [GNode.node "in" "Input" []]],
      "net"⟩ (by decide) (by decide)).1⟩

end MakiFlow
